import Mathlib

/-!
Shallow embedding of the query execution and caching subsystem of the
`wbprop` dashboard (files `src/services/cache/query-cache.ts` and
`src/services/sparql/client.ts`), together with theorems settling the
specification claims about it.

JavaScript `Map<string, V>` values are embedded as association lists in
insertion order: `Map.get` is the first matching key, `Map.set` replaces the
value in place when the key is present and appends otherwise, `Map.delete`
removes the entry.  Timestamps are naturals (`Date.now()` instants); the
JS comparison `now - entry.timestamp > ttl` coincides with the truncated
natural subtraction used here because a negative difference is never greater
than a non-negative `ttl`.
-/

set_option maxRecDepth 4000

namespace Wbprop

/-- `Map.get`: value of the entry with the given key. -/
def mapGet : List (String × β) → String → Option β
  | [], _ => none
  | p :: ps, k => if p.1 = k then some p.2 else mapGet ps k

/-- `Map.set`: replace in place when the key is present (keeping the entry's
position in insertion order), append otherwise. -/
def mapSet : List (String × β) → String → β → List (String × β)
  | [], k, v => [(k, v)]
  | p :: ps, k, v => if p.1 = k then (k, v) :: ps else p :: mapSet ps k v

/-- `Map.delete`: remove the entry with the given key. -/
def mapDelete : List (String × β) → String → List (String × β)
  | [], _ => []
  | p :: ps, k => if p.1 = k then ps else p :: mapDelete ps k

/-- Keys of an association list. -/
def mapKeys (l : List (String × β)) : List String :=
  l.map (fun p => p.1)

/-- The JavaScript `\s` regex class (also the character set removed by
`String.prototype.trim`): ASCII whitespace, NBSP, Unicode space separators,
line/paragraph separators and the BOM. -/
def isJsWS (c : Char) : Bool :=
  c.toNat = 0x20 || c.toNat = 0x09 || c.toNat = 0x0a || c.toNat = 0x0b ||
  c.toNat = 0x0c || c.toNat = 0x0d || c.toNat = 0xa0 || c.toNat = 0x1680 ||
  (0x2000 ≤ c.toNat && c.toNat ≤ 0x200a) || c.toNat = 0x2028 ||
  c.toNat = 0x2029 || c.toNat = 0x202f || c.toNat = 0x205f ||
  c.toNat = 0x3000 || c.toNat = 0xfeff

/-- Scanner for `query.replace(/\s+/g, ' ')`: the flag records whether the
scanner is inside a whitespace run (whose first character already emitted the
single replacement space). -/
def collapseAux : Bool → List Char → List Char
  | _, [] => []
  | inRun, c :: cs =>
    if isJsWS c then
      if inRun then collapseAux true cs else ' ' :: collapseAux true cs
    else c :: collapseAux false cs

/-- `query.replace(/\s+/g, ' ')`: each maximal run of whitespace becomes a
single space. -/
def collapseWS (l : List Char) : List Char :=
  collapseAux false l

/-- Leading-whitespace removal (half of `String.prototype.trim`). -/
def trimLeftWS (l : List Char) : List Char :=
  l.dropWhile isJsWS

/-- Trailing-whitespace removal (the other half of `trim`). -/
def trimRightWS (l : List Char) : List Char :=
  (l.reverse.dropWhile isJsWS).reverse

/-- `query.replace(/\s+/g, ' ').trim()` on the character list of the query. -/
def normalizeText (l : List Char) : List Char :=
  trimRightWS (trimLeftWS (collapseWS l))

/-- Word scanner: `cur` is the current word accumulated in reverse. -/
def wordsAux (cur : List Char) : List Char → List (List Char)
  | [] => if cur = [] then [] else [cur.reverse]
  | c :: cs =>
    if isJsWS c then
      if cur = [] then wordsAux [] cs else cur.reverse :: wordsAux [] cs
    else wordsAux (c :: cur) cs

/-- The maximal whitespace-free words of a text, in order.  Two texts
"differ only in whitespace layout" exactly when their word lists agree. -/
def wordsWS (l : List Char) : List (List Char) :=
  wordsAux [] l

/-- `QueryCache.makeKey(instanceId, query)`. -/
def makeKey (instanceId query : String) : String :=
  instanceId ++ ":" ++ String.mk (normalizeText query.data)

/-- One cache entry (`CacheEntry` in `query-cache.ts`): payload, insertion
instant (`timestamp`), owning instance. -/
structure CacheEntry (α : Type) where
  data : α
  timestamp : Nat
  instanceId : String
deriving DecidableEq, Repr

/-- The mutable state of a `QueryCache`: the in-memory map plus the
configured `ttl` and `maxEntries` (localStorage persistence is a best-effort
side effect that never changes the in-memory state and is not modelled). -/
structure CacheState (α : Type) where
  memoryCache : List (String × CacheEntry α)
  ttl : Nat
  maxEntries : Nat
deriving DecidableEq, Repr

/-- `QueryCache.isExpired(entry)`: `Date.now() - entry.timestamp > this.ttl`. -/
def isExpired (c : CacheState α) (now : Nat) (e : CacheEntry α) : Bool :=
  now - e.timestamp > c.ttl

/-- `QueryCache.get(key)`: returns the payload and the state after the call
(the entry is deleted when it has expired). -/
def cacheGet (c : CacheState α) (now : Nat) (key : String) :
    Option α × CacheState α :=
  match mapGet c.memoryCache key with
  | none => (none, c)
  | some e =>
    if isExpired c now e then
      (none, { c with memoryCache := mapDelete c.memoryCache key })
    else
      (some e.data, c)

/-- The fold step of the `for` loop in `QueryCache.evictOldest`: running
best (key, timestamp), updated on a strictly smaller timestamp (`oldestTime`
starts at `Infinity`, so the first entry always becomes the running best). -/
def oldestStep (acc : Option (String × Nat)) (p : String × CacheEntry α) :
    Option (String × Nat) :=
  match acc with
  | none => some (p.1, p.2.timestamp)
  | some (bk, bt) =>
    if p.2.timestamp < bt then some (p.1, p.2.timestamp) else some (bk, bt)

/-- `QueryCache.evictOldest()`.  The final `if (oldestKey)` is a JavaScript
truthiness test, so an empty-string key is treated like `null` and nothing
is deleted. -/
def evictOldest (m : List (String × CacheEntry α)) : List (String × CacheEntry α) :=
  match m.foldl oldestStep none with
  | none => m
  | some (k, _) => if k = "" then m else mapDelete m k

/-- `QueryCache.set(key, data, instanceId)` at instant `now` (`Date.now()`). -/
def cacheSet (c : CacheState α) (now : Nat) (key : String) (data : α)
    (instanceId : String) : CacheState α :=
  let m :=
    if c.memoryCache.length ≥ c.maxEntries then evictOldest c.memoryCache
    else c.memoryCache
  { c with memoryCache := mapSet m key ⟨data, now, instanceId⟩ }

/-- `QueryCache.getStats()`. -/
def getStats (c : CacheState α) : Nat × Nat × Nat :=
  (c.memoryCache.length, c.maxEntries, c.ttl)

/-- Successive `set` calls, one per `(key, time)` pair, with a fixed payload
and instance (the capacity scenario of the spec). -/
def insertPairs (c : CacheState α) (d : α) (inst : String) :
    List (String × Nat) → CacheState α
  | [] => c
  | (k, tm) :: rest => insertPairs (cacheSet c tm k d inst) d inst rest

/-! ## In-flight request registry (`inflightRequests` in `client.ts`)

The registry maps cache keys to pending promises.  A promise is embedded as
the numeric id of the network operation it settles with (`nextOp` is the id
the next started operation receives); `settled` lists the operations whose
promise has settled, in settlement order. -/

/-- State of the process-wide in-flight request registry. -/
structure InflightState where
  inflight : List (String × Nat)
  nextOp : Nat
  settled : List Nat
deriving DecidableEq, Repr

/-- The registry consultation performed synchronously inside
`SparqlClient.query` on a cache miss: reuse the in-flight promise when one
exists, otherwise start a new operation and register its promise.  Returns
the new state, the handle the caller will await, and whether a new network
operation was started.  (Between the `inflightRequests.get` and the
`inflightRequests.set` of the source there is no `await`, so the sequence is
atomic in the single-threaded event loop.) -/
def dedupQuery (s : InflightState) (key : String) : InflightState × Nat × Bool :=
  match mapGet s.inflight key with
  | some h => (s, h, false)
  | none =>
    ({ inflight := mapSet s.inflight key s.nextOp
       nextOp := s.nextOp + 1
       settled := s.settled }, s.nextOp, true)

/-- The `.finally(() => inflightRequests.delete(cacheKey))` step run when
operation `h` (registered under `key`) settles — the same step for success
and failure. -/
def dedupSettle (s : InflightState) (key : String) (h : Nat) : InflightState :=
  { inflight := mapDelete s.inflight key
    nextOp := s.nextOp
    settled := h :: s.settled }

/-- Events of the registry: a `query` call reaching the deduplication step
for its key, and the settlement of the operation registered under a key. -/
inductive DedupEvent where
  | query (key : String)
  | settle (key : String)
deriving DecidableEq, Repr

/-- One registry step. -/
def dedupStep (s : InflightState) : DedupEvent → InflightState
  | .query key => (dedupQuery s key).1
  | .settle key =>
    match mapGet s.inflight key with
    | some h => dedupSettle s key h
    | none => s

/-- Registry state after a sequence of events, from the initial empty
registry. -/
def dedupRun (evs : List DedupEvent) : InflightState :=
  evs.foldl dedupStep ⟨[], 0, []⟩

/-- Registry invariant: one entry per key; registered operation ids are
pairwise distinct; every registered operation has been started and not
settled; settled operations were started and are recorded once. -/
def DedupInv (s : InflightState) : Prop :=
  (mapKeys s.inflight).Nodup ∧
  (s.inflight.map (fun p => p.2)).Nodup ∧
  (∀ p ∈ s.inflight, p.2 < s.nextOp ∧ p.2 ∉ s.settled) ∧
  (∀ h ∈ s.settled, h < s.nextOp) ∧
  s.settled.Nodup

/-! ## Concurrency gate (`executeRequest` / `waitForSlot` / `processQueue`)

A faithful microtask-level machine.  `SparqlClient.executeRequest` runs
`await this.waitForSlot()`; the `waitForSlot` body executes synchronously,
and the `await` always yields, scheduling the continuation (which performs
`this.activeRequests++` and the network send) on the microtask queue.  When
the request settles, the `finally` block decrements the counter and
`processQueue` resolves the head waiter, scheduling that waiter's
continuation. -/

/-- Gate state: the counter and queue fields of `SparqlClient`, the pending
microtask continuations, and the tasks currently in the network phase. -/
structure GateState where
  activeRequests : Nat
  maxConcurrent : Nat
  requestQueue : List Nat
  microtasks : List Nat
  executing : List Nat
deriving DecidableEq, Repr

/-- Gate events: a request reaching `executeRequest` (its synchronous part
through `waitForSlot`), the event loop running the oldest scheduled
continuation, and a network request settling. -/
inductive GateEvent where
  | arrive (tid : Nat)
  | resume
  | complete (tid : Nat)
deriving DecidableEq, Repr

/-- One gate step; `none` when the event is not enabled. -/
def gateStep (s : GateState) : GateEvent → Option GateState
  | .arrive tid =>
    if s.activeRequests < s.maxConcurrent then
      some { s with microtasks := s.microtasks ++ [tid] }
    else
      some { s with requestQueue := s.requestQueue ++ [tid] }
  | .resume =>
    match s.microtasks with
    | [] => none
    | tid :: rest =>
      some { s with microtasks := rest
                    activeRequests := s.activeRequests + 1
                    executing := s.executing ++ [tid] }
  | .complete tid =>
    if s.executing.contains tid then
      let s1 := { s with executing := s.executing.erase tid
                         activeRequests := s.activeRequests - 1 }
      match s1.requestQueue with
      | [] => some s1
      | w :: ws =>
        if s1.activeRequests < s1.maxConcurrent then
          some { s1 with requestQueue := ws, microtasks := s1.microtasks ++ [w] }
        else some s1
    else none

/-- Gate state after a schedule of events, from the idle gate with the given
concurrency limit. -/
def gateRun (maxC : Nat) (evs : List GateEvent) : Option GateState :=
  evs.foldlM gateStep ⟨0, maxC, [], [], []⟩

/-! ## Retrying transport (`executeWithRetry` / `isRetryableError`) -/

/-- The part of an `AxiosError` the retry logic consults:
`error.response?.status` (`none` when no response was received). -/
structure AxiosErrorInfo where
  status : Option Nat
deriving DecidableEq, Repr

/-- `SparqlClient.isRetryableError`. -/
def isRetryableError (e : AxiosErrorInfo) : Bool :=
  match e.status with
  | none => true
  | some status => status ≥ 500 || status = 429

/-- Transcription of the claim's failure classification — network error,
5xx (500–599), or 429 — for comparison with `isRetryableError`. -/
def claimRetryableClass (e : AxiosErrorInfo) : Bool :=
  match e.status with
  | none => true
  | some status => (500 ≤ status && status ≤ 599) || status = 429

/-- Recursion core of `SparqlClient.executeWithRetry`.  The source recurses
on `attempt` with the guard `attempt < retries`; here the recursion is
structural on the remaining budget `retries - attempt`.  Returns the final
outcome and the list of backoff delays awaited, in order
(`retryDelay * (attempt + 1)` before moving to `attempt + 1`). -/
def retryFrom (transport : Nat → Except AxiosErrorInfo α) (retryDelay : Nat) :
    Nat → Nat → Except AxiosErrorInfo α × List Nat
  | attempt, 0 =>
    match transport attempt with
    | .ok v => (.ok v, [])
    | .error e => (.error e, [])
  | attempt, budget + 1 =>
    match transport attempt with
    | .ok v => (.ok v, [])
    | .error e =>
      if isRetryableError e then
        let rest := retryFrom transport retryDelay (attempt + 1) budget
        (rest.1, retryDelay * (attempt + 1) :: rest.2)
      else (.error e, [])

/-- `SparqlClient.executeWithRetry(sparql, attempt)` against a transport
oracle giving the outcome of each attempt number (0-based, as in the
source).  On a terminal failure the source throws `normalizeError(error)`, a
message-level rewrap; the embedded result carries the error data itself. -/
def executeWithRetry (transport : Nat → Except AxiosErrorInfo α)
    (retries retryDelay attempt : Nat) : Except AxiosErrorInfo α × List Nat :=
  retryFrom transport retryDelay attempt (retries - attempt)

/-! ## Client query paths (`SparqlClient.query` / `queryFresh`) -/

/-- The instance-configuration fields `query`/`queryFresh` consult.  The
optional booleans of `WikibaseConfig` are collapsed to `Bool` (JavaScript
`undefined` is falsy in `cfg.requiresAuthentication && !cfg.cookieBasedAuth`). -/
structure WikibaseConfig where
  id : String
  name : String
  requiresAuthentication : Bool
  cookieBasedAuth : Bool
  availabilityNote : Option String
deriving DecidableEq, Repr

/-- The message of the error thrown by the authentication gate:
`availabilityNote ?? name + " requires authenticated access for SPARQL queries."`. -/
def authGateMessage (cfg : WikibaseConfig) : String :=
  cfg.availabilityNote.getD
    (cfg.name ++ " requires authenticated access for SPARQL queries.")

/-- How one `query`/`queryFresh` call resolved. -/
inductive QueryPath (α : Type) where
  | authRefused (message : String)
  | cacheHit (payload : α)
  | joinedInflight (handle : Nat)
  | executed (result : Except AxiosErrorInfo α) (delays : List Nat)
deriving Repr

/-- Network attempts performed by a call that resolved along the given
path (each backoff delay precedes one further attempt). -/
def countAttempts : QueryPath α → Nat
  | .executed _ delays => delays.length + 1
  | _ => 0

/-- `SparqlClient.query(sparql)`: the full lifecycle of one call, with the
in-flight registration and its settlement collapsed into one sequential
pass — auth gate, cache lookup, in-flight lookup, then execute, write the
successful result through the cache, and retire the registration.  Returns
the resolution path and the cache/registry states after the call settles. -/
def clientQuery (cfg : WikibaseConfig) (retries retryDelay : Nat)
    (transport : Nat → Except AxiosErrorInfo α) (c : CacheState α)
    (reg : InflightState) (now : Nat) (sparql : String) :
    QueryPath α × CacheState α × InflightState :=
  if cfg.requiresAuthentication && !cfg.cookieBasedAuth then
    (.authRefused (authGateMessage cfg), c, reg)
  else
    let key := makeKey cfg.id sparql
    match cacheGet c now key with
    | (some v, c1) => (.cacheHit v, c1, reg)
    | (none, c1) =>
      match mapGet reg.inflight key with
      | some h => (.joinedInflight h, c1, reg)
      | none =>
        let started := dedupQuery reg key
        let r := executeWithRetry transport retries retryDelay 0
        match r.1 with
        | .ok v =>
          (.executed r.1 r.2, cacheSet c1 now key v cfg.id,
            dedupSettle started.1 key started.2.1)
        | .error _ =>
          (.executed r.1 r.2, c1, dedupSettle started.1 key started.2.1)

/-- `SparqlClient.queryFresh(sparql)`: auth gate, then execute (never
consulting the cache read path or the in-flight registry), then write a
successful result through the cache. -/
def queryFresh (cfg : WikibaseConfig) (retries retryDelay : Nat)
    (transport : Nat → Except AxiosErrorInfo α) (c : CacheState α)
    (reg : InflightState) (now : Nat) (sparql : String) :
    QueryPath α × CacheState α × InflightState :=
  if cfg.requiresAuthentication && !cfg.cookieBasedAuth then
    (.authRefused (authGateMessage cfg), c, reg)
  else
    let r := executeWithRetry transport retries retryDelay 0
    match r.1 with
    | .ok v =>
      (.executed r.1 r.2, cacheSet c now (makeKey cfg.id sparql) v cfg.id, reg)
    | .error _ => (.executed r.1 r.2, c, reg)

/-! ## Association-list lemmas -/

theorem mapGet_eq_none_iff (l : List (String × β)) (k : String) :
    mapGet l k = none ↔ k ∉ mapKeys l := by
  induction l with
  | nil => simp [mapGet, mapKeys]
  | cons q qs ih =>
    by_cases hq : q.1 = k
    · simp [mapGet, mapKeys, hq]
    · simp [mapGet, mapKeys, hq, ih, Ne.symm hq]

theorem mapGet_eq_none_of_not_mem (l : List (String × β)) (k : String)
    (h : k ∉ mapKeys l) : mapGet l k = none :=
  (mapGet_eq_none_iff l k).mpr h

theorem mapKeys_nil : mapKeys ([] : List (String × β)) = [] := rfl

theorem mapKeys_cons (q : String × β) (qs : List (String × β)) :
    mapKeys (q :: qs) = q.1 :: mapKeys qs := rfl

theorem mem_mapKeys_cons (q : String × β) (qs : List (String × β)) (k : String) :
    k ∈ mapKeys (q :: qs) ↔ q.1 = k ∨ k ∈ mapKeys qs := by
  rw [mapKeys_cons, List.mem_cons, eq_comm]

theorem mapGet_isSome_iff (l : List (String × β)) (k : String) :
    (mapGet l k).isSome = true ↔ k ∈ mapKeys l := by
  constructor
  · intro h
    by_contra hc
    rw [mapGet_eq_none_of_not_mem l k hc] at h
    simp at h
  · intro h
    cases hmg : mapGet l k with
    | none => exact absurd h ((mapGet_eq_none_iff l k).mp hmg)
    | some v => rfl

theorem mapGet_of_mem_nodup (l : List (String × β)) (k : String) (e : β)
    (hnd : (mapKeys l).Nodup) (hmem : (k, e) ∈ l) : mapGet l k = some e := by
  induction l with
  | nil => cases hmem
  | cons q qs ih =>
    rw [mapKeys_cons] at hnd
    have hnd2 := List.nodup_cons.mp hnd
    rcases List.mem_cons.mp hmem with hq | hq
    · rw [← hq, mapGet, if_pos rfl]
    · by_cases hqk : q.1 = k
      · exfalso
        have hk : k ∈ mapKeys qs := List.mem_map.mpr ⟨(k, e), hq, rfl⟩
        exact hnd2.1 (hqk ▸ hk)
      · rw [mapGet, if_neg hqk]
        exact ih hnd2.2 hq

theorem mapGet_mapSet_self (l : List (String × β)) (k : String) (v : β) :
    mapGet (mapSet l k v) k = some v := by
  induction l with
  | nil => rw [mapSet, mapGet, if_pos rfl]
  | cons q qs ih =>
    by_cases hq : q.1 = k
    · rw [mapSet, if_pos hq, mapGet, if_pos rfl]
    · rw [mapSet, if_neg hq, mapGet, if_neg hq]
      exact ih

theorem mapGet_mapSet_ne (l : List (String × β)) (k k2 : String) (v : β)
    (hne : k2 ≠ k) : mapGet (mapSet l k v) k2 = mapGet l k2 := by
  induction l with
  | nil => simp [mapSet, mapGet, Ne.symm hne]
  | cons q qs ih =>
    by_cases hq : q.1 = k
    · rw [mapSet, if_pos hq, mapGet, if_neg (Ne.symm hne), mapGet, if_neg (hq ▸ Ne.symm hne : ¬q.1 = k2)]
    · rw [mapSet, if_neg hq]
      by_cases hq2 : q.1 = k2
      · rw [mapGet, if_pos hq2, mapGet, if_pos hq2]
      · rw [mapGet, if_neg hq2, mapGet, if_neg hq2]
        exact ih

theorem mapKeys_mapSet_present (l : List (String × β)) (k : String) (v : β)
    (h : k ∈ mapKeys l) : mapKeys (mapSet l k v) = mapKeys l := by
  induction l with
  | nil => cases h
  | cons q qs ih =>
    by_cases hq : q.1 = k
    · rw [mapSet, if_pos hq, mapKeys_cons, mapKeys_cons, hq]
    · have hk : k ∈ mapKeys qs := by
        rcases (mem_mapKeys_cons q qs k).mp h with h1 | h1
        · exact absurd h1 hq
        · exact h1
      rw [mapSet, if_neg hq, mapKeys_cons, mapKeys_cons, ih hk]

theorem mapKeys_mapSet_absent (l : List (String × β)) (k : String) (v : β)
    (h : k ∉ mapKeys l) : mapKeys (mapSet l k v) = mapKeys l ++ [k] := by
  induction l with
  | nil => rfl
  | cons q qs ih =>
    have hq : q.1 ≠ k := fun hc => h ((mem_mapKeys_cons q qs k).mpr (Or.inl hc))
    have hk : k ∉ mapKeys qs := fun hc => h ((mem_mapKeys_cons q qs k).mpr (Or.inr hc))
    rw [mapSet, if_neg hq, mapKeys_cons, mapKeys_cons, ih hk]
    rfl

theorem length_mapSet_present (l : List (String × β)) (k : String) (v : β)
    (h : k ∈ mapKeys l) : (mapSet l k v).length = l.length := by
  have := congrArg List.length (mapKeys_mapSet_present l k v h)
  simpa [mapKeys] using this

theorem length_mapSet_absent (l : List (String × β)) (k : String) (v : β)
    (h : k ∉ mapKeys l) : (mapSet l k v).length = l.length + 1 := by
  have := congrArg List.length (mapKeys_mapSet_absent l k v h)
  simpa [mapKeys] using this

theorem length_mapSet_le (l : List (String × β)) (k : String) (v : β) :
    (mapSet l k v).length ≤ l.length + 1 := by
  by_cases h : k ∈ mapKeys l
  · rw [length_mapSet_present l k v h]; exact Nat.le_succ _
  · rw [length_mapSet_absent l k v h]

theorem nodup_mapKeys_mapSet (l : List (String × β)) (k : String) (v : β)
    (hnd : (mapKeys l).Nodup) : (mapKeys (mapSet l k v)).Nodup := by
  by_cases h : k ∈ mapKeys l
  · rwa [mapKeys_mapSet_present l k v h]
  · rw [mapKeys_mapSet_absent l k v h]
    simp [List.nodup_append, hnd, h]

theorem mapKeys_mapDelete_sublist (l : List (String × β)) (k : String) :
    (mapKeys (mapDelete l k)).Sublist (mapKeys l) := by
  induction l with
  | nil => exact List.Sublist.refl _
  | cons q qs ih =>
    by_cases hq : q.1 = k
    · rw [mapDelete, if_pos hq, mapKeys_cons]
      exact List.sublist_cons_self _ _
    · rw [mapDelete, if_neg hq, mapKeys_cons, mapKeys_cons]
      exact List.Sublist.cons₂ q.1 ih

theorem nodup_mapKeys_mapDelete (l : List (String × β)) (k : String)
    (hnd : (mapKeys l).Nodup) : (mapKeys (mapDelete l k)).Nodup :=
  (mapKeys_mapDelete_sublist l k).nodup hnd

theorem length_mapDelete_of_mem (l : List (String × β)) (k : String)
    (h : k ∈ mapKeys l) : (mapDelete l k).length + 1 = l.length := by
  induction l with
  | nil => cases h
  | cons q qs ih =>
    by_cases hq : q.1 = k
    · rw [mapDelete, if_pos hq, List.length_cons]
    · have hk : k ∈ mapKeys qs := by
        rcases (mem_mapKeys_cons q qs k).mp h with h1 | h1
        · exact absurd h1 hq
        · exact h1
      rw [mapDelete, if_neg hq, List.length_cons, List.length_cons, ih hk]

theorem mapGet_mapDelete_self (l : List (String × β)) (k : String)
    (hnd : (mapKeys l).Nodup) : mapGet (mapDelete l k) k = none := by
  induction l with
  | nil => rfl
  | cons q qs ih =>
    rw [mapKeys_cons] at hnd
    have hnd2 := List.nodup_cons.mp hnd
    by_cases hq : q.1 = k
    · rw [mapDelete, if_pos hq]
      exact mapGet_eq_none_of_not_mem qs k (hq ▸ hnd2.1)
    · rw [mapDelete, if_neg hq, mapGet, if_neg hq]
      exact ih hnd2.2

theorem mapGet_mapDelete_ne (l : List (String × β)) (k k2 : String)
    (hne : k2 ≠ k) : mapGet (mapDelete l k) k2 = mapGet l k2 := by
  induction l with
  | nil => rfl
  | cons q qs ih =>
    by_cases hq : q.1 = k
    · rw [mapDelete, if_pos hq, mapGet, if_neg (by rw [hq]; exact Ne.symm hne)]
    · rw [mapDelete, if_neg hq]
      by_cases hq2 : q.1 = k2
      · rw [mapGet, if_pos hq2, mapGet, if_pos hq2]
      · rw [mapGet, if_neg hq2, mapGet, if_neg hq2]
        exact ih

theorem mapSet_absent_eq_append (l : List (String × β)) (k : String) (v : β)
    (h : k ∉ mapKeys l) : mapSet l k v = l ++ [(k, v)] := by
  induction l with
  | nil => rfl
  | cons q qs ih =>
    have hq : q.1 ≠ k := fun hc => h ((mem_mapKeys_cons q qs k).mpr (Or.inl hc))
    have hk : k ∉ mapKeys qs := fun hc => h ((mem_mapKeys_cons q qs k).mpr (Or.inr hc))
    rw [mapSet, if_neg hq, ih hk]
    rfl

theorem mapDelete_sublist (l : List (String × β)) (k : String) :
    (mapDelete l k).Sublist l := by
  induction l with
  | nil => exact List.Sublist.refl _
  | cons q qs ih =>
    by_cases hq : q.1 = k
    · rw [mapDelete, if_pos hq]
      exact List.sublist_cons_self _ _
    · rw [mapDelete, if_neg hq]
      exact List.Sublist.cons₂ q ih

theorem mapGet_some_mem (l : List (String × β)) (k : String) (v : β)
    (h : mapGet l k = some v) : (k, v) ∈ l := by
  induction l with
  | nil => cases h
  | cons q qs ih =>
    by_cases hq : q.1 = k
    · rw [mapGet, if_pos hq] at h
      have hv : q.2 = v := by injection h
      have hqkv : q = (k, v) := by rw [← hq, ← hv]
      rw [← hqkv]
      exact List.mem_cons_self q qs
    · rw [mapGet, if_neg hq] at h
      exact List.mem_cons.mpr (Or.inr (ih h))

theorem mapGet_append_of_not_mem (l m : List (String × β)) (k : String)
    (h : k ∉ mapKeys l) : mapGet (l ++ m) k = mapGet m k := by
  induction l with
  | nil => rfl
  | cons q qs ih =>
    have hq : q.1 ≠ k := fun hc => h ((mem_mapKeys_cons q qs k).mpr (Or.inl hc))
    have hk : k ∉ mapKeys qs := fun hc => h ((mem_mapKeys_cons q qs k).mpr (Or.inr hc))
    rw [List.cons_append, mapGet, if_neg hq]
    exact ih hk

theorem mapGet_append_of_some (l m : List (String × β)) (k : String) (v : β)
    (h : mapGet l k = some v) : mapGet (l ++ m) k = some v := by
  induction l with
  | nil => cases h
  | cons q qs ih =>
    by_cases hq : q.1 = k
    · rw [mapGet, if_pos hq] at h
      rw [List.cons_append, mapGet, if_pos hq]
      exact h
    · rw [mapGet, if_neg hq] at h
      rw [List.cons_append, mapGet, if_neg hq]
      exact ih h

/-! ## Whitespace-normalization lemmas -/

theorem dropWhile_head_not (p : Char → Bool) (l : List Char) (x : Char)
    (xs : List Char) (h : l.dropWhile p = x :: xs) : p x = false := by
  have hh := List.head?_dropWhile_not p l
  rw [h] at hh
  simpa using hh

theorem collapseAux_true (cs : List Char) :
    collapseAux true cs = collapseAux false (cs.dropWhile isJsWS) := by
  induction cs with
  | nil => rfl
  | cons c cs ih =>
    by_cases h : isJsWS c = true
    · rw [show collapseAux true (c :: cs) = collapseAux true cs from by
        simp [collapseAux, h], List.dropWhile_cons, if_pos h]
      exact ih
    · rw [List.dropWhile_cons, if_neg (by simpa using h)]
      simp [collapseAux, h]

theorem collapseWS_nil : collapseWS [] = [] := rfl

theorem collapseWS_cons (c : Char) (cs : List Char) :
    collapseWS (c :: cs) =
      if isJsWS c then ' ' :: collapseWS (cs.dropWhile isJsWS)
      else c :: collapseWS cs := by
  by_cases h : isJsWS c = true
  · rw [if_pos h, collapseWS, collapseWS, ← collapseAux_true]
    simp [collapseAux, h]
  · rw [if_neg (by simpa using h), collapseWS, collapseWS]
    simp [collapseAux, h]

theorem wordsAux_acc (cs : List Char) : ∀ cur : List Char, cur ≠ [] →
    wordsAux cur cs = (cur.reverse ++ cs.takeWhile (fun d => !isJsWS d)) ::
      wordsAux [] (cs.dropWhile (fun d => !isJsWS d)) := by
  induction cs with
  | nil =>
    intro cur h
    simp [wordsAux, h]
  | cons c cs ih =>
    intro cur h
    by_cases hc : isJsWS c = true
    · rw [show wordsAux cur (c :: cs) = cur.reverse :: wordsAux [] cs from by
        simp [wordsAux, hc, h],
        List.takeWhile_cons, List.dropWhile_cons]
      simp only [hc, Bool.not_true, Bool.false_eq_true, if_false]
      rw [show wordsAux [] (c :: cs) = wordsAux [] cs from by simp [wordsAux, hc]]
      simp
    · rw [show wordsAux cur (c :: cs) = wordsAux (c :: cur) cs from by
        simp [wordsAux, hc],
        ih (c :: cur) (List.cons_ne_nil c cur),
        List.takeWhile_cons, List.dropWhile_cons]
      simp only [hc, Bool.not_false, if_true, Bool.false_eq_true]
      rw [List.reverse_cons]
      simp [List.append_assoc]

theorem wordsWS_nil : wordsWS [] = [] := rfl

theorem wordsWS_cons (c : Char) (cs : List Char) :
    wordsWS (c :: cs) =
      if isJsWS c then wordsWS cs
      else (c :: cs.takeWhile (fun d => !isJsWS d)) ::
        wordsWS (cs.dropWhile (fun d => !isJsWS d)) := by
  by_cases h : isJsWS c = true
  · rw [if_pos h, wordsWS, wordsWS]
    simp [wordsAux, h]
  · rw [if_neg (by simpa using h), wordsWS, wordsWS]
    rw [show wordsAux [] (c :: cs) = wordsAux [c] cs from by simp [wordsAux, h],
      wordsAux_acc cs [c] (List.cons_ne_nil c [])]
    simp

theorem wordsWS_dropWhile (l : List Char) :
    wordsWS (l.dropWhile isJsWS) = wordsWS l := by
  induction l with
  | nil => rfl
  | cons c cs ih =>
    by_cases h : isJsWS c = true
    · rw [List.dropWhile_cons, if_pos h, ih, wordsWS_cons, if_pos h]
    · rw [List.dropWhile_cons, if_neg (by simpa using h)]

theorem collapseWS_nonWS_prefix (w r : List Char)
    (hw : ∀ x ∈ w, isJsWS x = false) :
    collapseWS (w ++ r) = w ++ collapseWS r := by
  induction w with
  | nil => rfl
  | cons c cs ih =>
    rw [List.cons_append, collapseWS_cons,
      if_neg (by simp [hw c (List.mem_cons_self c cs)]),
      ih (fun x hx => hw x (List.mem_cons.mpr (Or.inr hx)))]
    rfl

theorem dropWhile_append_of_ne_nil (p : Char → Bool) (a b : List Char)
    (h : a.dropWhile p ≠ []) :
    (a ++ b).dropWhile p = a.dropWhile p ++ b := by
  induction a with
  | nil => exact absurd rfl h
  | cons c cs ih =>
    by_cases hc : p c = true
    · rw [List.dropWhile_cons, if_pos hc] at h
      rw [List.cons_append, List.dropWhile_cons, if_pos hc, ih h,
        List.dropWhile_cons, if_pos hc]
    · rw [List.cons_append, List.dropWhile_cons, if_neg (by simpa using hc),
        List.dropWhile_cons, if_neg (by simpa using hc)]
      rfl

theorem dropWhile_append_all (p : Char → Bool) (a b : List Char)
    (ha : ∀ x ∈ a, p x = true) :
    (a ++ b).dropWhile p = b.dropWhile p := by
  induction a with
  | nil => rfl
  | cons c cs ih =>
    rw [List.cons_append, List.dropWhile_cons, if_pos (ha c (List.mem_cons_self c cs))]
    exact ih (fun x hx => ha x (List.mem_cons.mpr (Or.inr hx)))

theorem trimRightWS_append_of_exists (l m : List Char)
    (hm : ∃ c ∈ m, isJsWS c = false) :
    trimRightWS (l ++ m) = l ++ trimRightWS m := by
  have hne : m.reverse.dropWhile isJsWS ≠ [] := by
    intro hc
    rcases hm with ⟨c, hcm, hcw⟩
    have := List.dropWhile_eq_nil_iff.mp hc c (List.mem_reverse.mpr hcm)
    rw [hcw] at this
    cases this
  rw [trimRightWS, List.reverse_append, dropWhile_append_of_ne_nil _ _ _ hne,
    List.reverse_append, List.reverse_reverse]
  rfl

theorem trimRightWS_nonWS_padded (w sp : List Char)
    (hw : ∀ x ∈ w, isJsWS x = false) (hsp : ∀ x ∈ sp, isJsWS x = true) :
    trimRightWS (w ++ sp) = w := by
  rw [trimRightWS, List.reverse_append,
    dropWhile_append_all _ _ _ (fun x hx => hsp x (List.mem_reverse.mp hx))]
  cases hrev : w.reverse with
  | nil =>
    rw [List.reverse_eq_nil_iff.mp hrev]
    rfl
  | cons c cs =>
    have hc : isJsWS c = false :=
      hw c (List.mem_reverse.mp (hrev ▸ List.mem_cons_self c cs))
    rw [List.dropWhile_cons, if_neg (by simp [hc]), ← hrev, List.reverse_reverse]

theorem intercalate_single (sep x : List Char) :
    List.intercalate sep [x] = x := by
  simp [List.intercalate]

theorem intercalate_cons₂ (sep x y : List Char) (t : List (List Char)) :
    List.intercalate sep (x :: y :: t) = x ++ sep ++ List.intercalate sep (y :: t) := by
  simp [List.intercalate, List.append_assoc]

theorem trim_collapse_drop_eq_words : ∀ (n : Nat) (l : List Char), l.length ≤ n →
    trimRightWS (collapseWS (l.dropWhile isJsWS)) =
      List.intercalate [' '] (wordsWS l) := by
  intro n
  induction n with
  | zero =>
    intro l hl
    rw [List.length_eq_zero.mp (Nat.le_zero.mp hl)]
    rfl
  | succ n ih =>
    intro l hl
    cases hm : l.dropWhile isJsWS with
    | nil =>
      rw [← wordsWS_dropWhile l, hm]
      rfl
    | cons d ds =>
      have hd : isJsWS d = false := dropWhile_head_not isJsWS l d ds hm
      have hwAll : ∀ x ∈ d :: ds.takeWhile (fun y => !isJsWS y), isJsWS x = false := by
        intro x hx
        rcases List.mem_cons.mp hx with h1 | h1
        · rw [h1]; exact hd
        · simpa using List.mem_takeWhile_imp h1
      have hsplit : (d :: ds : List Char) =
          (d :: ds.takeWhile (fun y => !isJsWS y)) ++ ds.dropWhile (fun y => !isJsWS y) := by
        rw [List.cons_append, List.takeWhile_append_dropWhile]
      have hwords : wordsWS l = (d :: ds.takeWhile (fun y => !isJsWS y)) ::
          wordsWS (ds.dropWhile (fun y => !isJsWS y)) := by
        rw [← wordsWS_dropWhile l, hm, wordsWS_cons, if_neg (by simp [hd])]
      have hcol : collapseWS (d :: ds) =
          (d :: ds.takeWhile (fun y => !isJsWS y)) ++
            collapseWS (ds.dropWhile (fun y => !isJsWS y)) := by
        conv =>
          lhs
          rw [hsplit]
        exact collapseWS_nonWS_prefix _ _ hwAll
      cases hr : ds.dropWhile (fun y => !isJsWS y) with
      | nil =>
        rw [hcol, hr, collapseWS_nil, hwords, hr, wordsWS_nil, intercalate_single]
        rw [trimRightWS_nonWS_padded _ [] hwAll (by intro x hx; cases hx)]
      | cons e es =>
        have he : isJsWS e = true := by
          have := dropWhile_head_not (fun y => !isJsWS y) ds e es hr
          simpa using this
        have hlen : es.length ≤ n := by
          have h1 : (l.dropWhile isJsWS).length ≤ l.length :=
            (List.dropWhile_suffix isJsWS).length_le
          rw [hm] at h1
          have h2 : (ds.dropWhile (fun y => !isJsWS y)).length ≤ ds.length :=
            (List.dropWhile_suffix _).length_le
          rw [hr] at h2
          simp only [List.length_cons] at h1 h2
          omega
        have hwr : wordsWS (ds.dropWhile (fun y => !isJsWS y)) = wordsWS es := by
          rw [hr, wordsWS_cons, if_pos he]
        cases hm2 : es.dropWhile isJsWS with
        | nil =>
          have hcolr : collapseWS (ds.dropWhile (fun y => !isJsWS y)) = [' '] := by
            rw [hr, collapseWS_cons, if_pos he, hm2, collapseWS_nil]
          have hwes : wordsWS es = [] := by
            rw [← wordsWS_dropWhile es, hm2, wordsWS_nil]
          rw [hcol, hcolr, hwords, hwr, hwes, intercalate_single]
          exact trimRightWS_nonWS_padded _ [' '] hwAll
            (by intro x hx; rw [List.mem_singleton.mp hx]; rfl)
        | cons f fs =>
          have hf : isJsWS f = false := dropWhile_head_not isJsWS es f fs hm2
          have hcolr : collapseWS (ds.dropWhile (fun y => !isJsWS y)) =
              ' ' :: collapseWS (es.dropWhile isJsWS) := by
            rw [hr, collapseWS_cons, if_pos he]
          have hex : ∃ c ∈ collapseWS (es.dropWhile isJsWS), isJsWS c = false := by
            rw [hm2, collapseWS_cons, if_neg (by simp [hf])]
            exact ⟨f, List.mem_cons_self _ _, hf⟩
          have hsplit2 : (d :: ds.takeWhile (fun y => !isJsWS y)) ++
              ' ' :: collapseWS (es.dropWhile isJsWS) =
              ((d :: ds.takeWhile (fun y => !isJsWS y)) ++ [' ']) ++
                collapseWS (es.dropWhile isJsWS) := by
            simp
          rw [hcol, hcolr, hsplit2, trimRightWS_append_of_exists _ _ hex,
            ih es hlen, hwords, hwr]
          have hne : wordsWS es ≠ [] := by
            rw [← wordsWS_dropWhile es, hm2, wordsWS_cons, if_neg (by simp [hf])]
            exact List.cons_ne_nil _ _
          cases hwes : wordsWS es with
          | nil => exact absurd hwes hne
          | cons y t =>
            rw [intercalate_cons₂]

theorem trimLeftWS_collapseWS (l : List Char) :
    trimLeftWS (collapseWS l) = collapseWS (l.dropWhile isJsWS) := by
  cases l with
  | nil => rfl
  | cons c cs =>
    by_cases h : isJsWS c = true
    · rw [collapseWS_cons, if_pos h, trimLeftWS, List.dropWhile_cons,
        if_pos (by rfl : isJsWS ' ' = true), List.dropWhile_cons, if_pos h]
      cases hm : cs.dropWhile isJsWS with
      | nil => rw [collapseWS_nil]; rfl
      | cons d ds =>
        have hd : isJsWS d = false := dropWhile_head_not isJsWS cs d ds hm
        rw [collapseWS_cons, if_neg (by simp [hd]), List.dropWhile_cons,
          if_neg (by simp [hd])]
    · rw [collapseWS_cons, if_neg (by simpa using h), trimLeftWS,
        List.dropWhile_cons, if_neg (by simpa using h), List.dropWhile_cons,
        if_neg (by simpa using h), collapseWS_cons, if_neg (by simpa using h)]

theorem normalizeText_eq_intercalate_words (l : List Char) :
    normalizeText l = List.intercalate [' '] (wordsWS l) := by
  rw [normalizeText, trimLeftWS_collapseWS]
  exact trim_collapse_drop_eq_words l.length l (Nat.le_refl _)

/-! ## Cache lemmas -/

theorem oldestStep_keeps (m : List (String × CacheEntry α)) :
    ∀ (bk : String) (bt : Nat), (∀ p ∈ m, bt ≤ p.2.timestamp) →
      m.foldl oldestStep (some (bk, bt)) = some (bk, bt) := by
  induction m with
  | nil => intro bk bt _; rfl
  | cons q qs ih =>
    intro bk bt h
    have hq : bt ≤ q.2.timestamp := h q (List.mem_cons_self q qs)
    rw [List.foldl_cons,
      show oldestStep (some (bk, bt)) q = some (bk, bt) from by
        simp only [oldestStep]; rw [if_neg (Nat.not_lt.mpr hq)]]
    exact ih bk bt (fun p hp => h p (List.mem_cons.mpr (Or.inr hp)))

theorem oldestAcc_min (m : List (String × CacheEntry α)) :
    ∀ (bk : String) (bt : Nat),
      ∃ rk rt, m.foldl oldestStep (some (bk, bt)) = some (rk, rt) ∧
        rt ≤ bt ∧ (∀ p ∈ m, rt ≤ p.2.timestamp) ∧
        ((rk = bk ∧ rt = bt) ∨ ∃ e, (rk, e) ∈ m ∧ e.timestamp = rt) := by
  induction m with
  | nil =>
    intro bk bt
    exact ⟨bk, bt, rfl, Nat.le_refl _,
      fun p hp => absurd hp (List.not_mem_nil p), Or.inl ⟨rfl, rfl⟩⟩
  | cons q qs ih =>
    intro bk bt
    rw [List.foldl_cons]
    by_cases hlt : q.2.timestamp < bt
    · rw [show oldestStep (some (bk, bt)) q = some (q.1, q.2.timestamp) from by
        simp only [oldestStep]; rw [if_pos hlt]]
      rcases ih q.1 q.2.timestamp with ⟨rk, rt, heq, hle, hmin, hcase⟩
      refine ⟨rk, rt, heq, Nat.le_of_lt (Nat.lt_of_le_of_lt hle hlt), ?_, ?_⟩
      · intro p hp
        rcases List.mem_cons.mp hp with h1 | h1
        · exact h1 ▸ hle
        · exact hmin p h1
      · rcases hcase with ⟨h1, h2⟩ | ⟨e, he, het⟩
        · right
          refine ⟨q.2, ?_, h2.symm⟩
          rw [h1]
          exact List.mem_cons_self q qs
        · exact Or.inr ⟨e, List.mem_cons.mpr (Or.inr he), het⟩
    · rw [show oldestStep (some (bk, bt)) q = some (bk, bt) from by
        simp only [oldestStep]; rw [if_neg hlt]]
      rcases ih bk bt with ⟨rk, rt, heq, hle, hmin, hcase⟩
      refine ⟨rk, rt, heq, hle, ?_, ?_⟩
      · intro p hp
        rcases List.mem_cons.mp hp with h1 | h1
        · rw [h1]
          exact Nat.le_trans hle (Nat.not_lt.mp hlt)
        · exact hmin p h1
      · rcases hcase with h1 | ⟨e, he, het⟩
        · exact Or.inl h1
        · exact Or.inr ⟨e, List.mem_cons.mpr (Or.inr he), het⟩

theorem oldest_exists (m : List (String × CacheEntry α)) (hm : m ≠ []) :
    ∃ k0 e0, (k0, e0) ∈ m ∧ m.foldl oldestStep none = some (k0, e0.timestamp) ∧
      ∀ p ∈ m, e0.timestamp ≤ p.2.timestamp := by
  cases m with
  | nil => exact absurd rfl hm
  | cons q qs =>
    rw [List.foldl_cons, show oldestStep none q = some (q.1, q.2.timestamp) from rfl]
    rcases oldestAcc_min qs q.1 q.2.timestamp with ⟨rk, rt, heq, hle, hmin, hcase⟩
    rcases hcase with ⟨h1, h2⟩ | ⟨e, he, het⟩
    · refine ⟨q.1, q.2, List.mem_cons_self q qs, by rw [heq, h1, h2], ?_⟩
      intro p hp
      rcases List.mem_cons.mp hp with hh | hh
      · rw [hh]
      · exact h2 ▸ hmin p hh
    · refine ⟨rk, e, List.mem_cons.mpr (Or.inr he), by rw [heq, het], ?_⟩
      intro p hp
      rcases List.mem_cons.mp hp with hh | hh
      · rw [hh, het]
        exact hle
      · exact het ▸ hmin p hh

theorem evictOldest_of_fold_none (m : List (String × CacheEntry α))
    (h : m.foldl oldestStep none = none) : evictOldest m = m := by
  rw [evictOldest, h]

theorem evictOldest_of_fold_some (m : List (String × CacheEntry α))
    (k0 : String) (t0 : Nat) (h : m.foldl oldestStep none = some (k0, t0))
    (hne : k0 ≠ "") : evictOldest m = mapDelete m k0 := by
  rw [evictOldest, h]
  exact if_neg hne

theorem nodup_evictOldest (m : List (String × CacheEntry α))
    (hnd : (mapKeys m).Nodup) : (mapKeys (evictOldest m)).Nodup := by
  rw [evictOldest]
  cases m.foldl oldestStep none with
  | none => exact hnd
  | some kt =>
    obtain ⟨k0, t0⟩ := kt
    show (mapKeys (if k0 = "" then m else mapDelete m k0)).Nodup
    by_cases hk : k0 = ""
    · rw [if_pos hk]
      exact hnd
    · rw [if_neg hk]
      exact nodup_mapKeys_mapDelete m k0 hnd

theorem length_evictOldest (m : List (String × CacheEntry α)) (hm : m ≠ [])
    (hne : "" ∉ mapKeys m) : (evictOldest m).length + 1 = m.length := by
  rcases oldest_exists m hm with ⟨k0, e0, hmem, hfold, _⟩
  have hk0 : k0 ∈ mapKeys m := List.mem_map.mpr ⟨(k0, e0), hmem, rfl⟩
  have hk0ne : k0 ≠ "" := fun hc => hne (hc ▸ hk0)
  rw [evictOldest_of_fold_some m k0 e0.timestamp hfold hk0ne]
  exact length_mapDelete_of_mem m k0 hk0

theorem cacheSet_memoryCache_at_capacity (c : CacheState α) (now : Nat)
    (key : String) (d : α) (inst : String)
    (h : c.memoryCache.length ≥ c.maxEntries) :
    (cacheSet c now key d inst).memoryCache =
      mapSet (evictOldest c.memoryCache) key ⟨d, now, inst⟩ := by
  simp [cacheSet, h]

theorem cacheSet_memoryCache_below_capacity (c : CacheState α) (now : Nat)
    (key : String) (d : α) (inst : String)
    (h : c.memoryCache.length < c.maxEntries) :
    (cacheSet c now key d inst).memoryCache =
      mapSet c.memoryCache key ⟨d, now, inst⟩ := by
  simp [cacheSet, Nat.not_le.mpr h]

theorem cacheSet_ttl (c : CacheState α) (now : Nat) (key : String) (d : α)
    (inst : String) : (cacheSet c now key d inst).ttl = c.ttl := rfl

theorem cacheSet_maxEntries (c : CacheState α) (now : Nat) (key : String)
    (d : α) (inst : String) :
    (cacheSet c now key d inst).maxEntries = c.maxEntries := rfl

theorem mapGet_cacheSet_self (c : CacheState α) (now : Nat) (key : String)
    (d : α) (inst : String) :
    mapGet (cacheSet c now key d inst).memoryCache key =
      some ⟨d, now, inst⟩ := by
  by_cases h : c.memoryCache.length ≥ c.maxEntries
  · rw [cacheSet_memoryCache_at_capacity c now key d inst h]
    exact mapGet_mapSet_self _ _ _
  · rw [cacheSet_memoryCache_below_capacity c now key d inst (Nat.not_le.mp h)]
    exact mapGet_mapSet_self _ _ _

theorem nodup_cacheSet (c : CacheState α) (now : Nat) (key : String) (d : α)
    (inst : String) (hnd : (mapKeys c.memoryCache).Nodup) :
    (mapKeys (cacheSet c now key d inst).memoryCache).Nodup := by
  by_cases h : c.memoryCache.length ≥ c.maxEntries
  · rw [cacheSet_memoryCache_at_capacity c now key d inst h]
    exact nodup_mapKeys_mapSet _ _ _ (nodup_evictOldest _ hnd)
  · rw [cacheSet_memoryCache_below_capacity c now key d inst (Nat.not_le.mp h)]
    exact nodup_mapKeys_mapSet _ _ _ hnd

theorem insertPairs_fresh (d : α) (inst : String) :
    ∀ (ps : List (String × Nat)) (c : CacheState α),
      (∀ p ∈ ps, p.1 ∉ mapKeys c.memoryCache) →
      (ps.map Prod.fst).Nodup →
      c.memoryCache.length + ps.length ≤ c.maxEntries →
      insertPairs c d inst ps =
        ⟨c.memoryCache ++ ps.map (fun p => (p.1, ⟨d, p.2, inst⟩)),
          c.ttl, c.maxEntries⟩ := by
  intro ps
  induction ps with
  | nil =>
    intro c _ _ _
    cases c
    simp [insertPairs]
  | cons p ps ih =>
    intro c hfresh hnd hlen
    obtain ⟨k, tm⟩ := p
    have hknotin : k ∉ mapKeys c.memoryCache :=
      hfresh (k, tm) (List.mem_cons_self _ _)
    have hlt : c.memoryCache.length < c.maxEntries := by
      simp only [List.length_cons] at hlen
      omega
    have hset : cacheSet c tm k d inst =
        ⟨c.memoryCache ++ [(k, ⟨d, tm, inst⟩)], c.ttl, c.maxEntries⟩ := by
      have hmem := cacheSet_memoryCache_below_capacity c tm k d inst hlt
      rw [mapSet_absent_eq_append _ _ _ hknotin] at hmem
      cases hcs : cacheSet c tm k d inst
      have ht := cacheSet_ttl c tm k d inst
      have hx := cacheSet_maxEntries c tm k d inst
      rw [hcs] at hmem ht hx
      simp at hmem ht hx
      rw [hmem, ht, hx]
    have hnd2 := List.nodup_cons.mp hnd
    have hfresh2 : ∀ p ∈ ps, p.1 ∉ mapKeys
        ((⟨c.memoryCache ++ [(k, ⟨d, tm, inst⟩)], c.ttl, c.maxEntries⟩ :
          CacheState α)).memoryCache := by
      intro p hp hc
      rcases List.mem_map.mp hc with ⟨q, hq, hqk⟩
      rcases List.mem_append.mp hq with h1 | h1
      · exact hfresh p (List.mem_cons.mpr (Or.inr hp)) (List.mem_map.mpr ⟨q, h1, hqk⟩)
      · rw [List.mem_singleton.mp h1] at hqk
        simp only at hqk
        refine hnd2.1 ?_
        rw [show ((k, tm) : String × Nat).1 = k from rfl, hqk]
        exact List.mem_map.mpr ⟨p, hp, rfl⟩
    have hlen2 : ((⟨c.memoryCache ++ [(k, ⟨d, tm, inst⟩)], c.ttl, c.maxEntries⟩ :
        CacheState α)).memoryCache.length + ps.length ≤
        ((⟨c.memoryCache ++ [(k, ⟨d, tm, inst⟩)], c.ttl, c.maxEntries⟩ :
          CacheState α)).maxEntries := by
      simp only [List.length_append, List.length_singleton, List.length_cons,
        List.length_nil] at hlen ⊢
      omega
    have ihx := ih _ hfresh2 hnd2.2 hlen2
    rw [show insertPairs c d inst ((k, tm) :: ps) =
        insertPairs (cacheSet c tm k d inst) d inst ps from rfl, hset, ihx]
    simp [List.append_assoc]

/-! ## In-flight registry lemmas -/

theorem dedupQuery_of_some (s : InflightState) (key : String) (h : Nat)
    (hq : mapGet s.inflight key = some h) : dedupQuery s key = (s, h, false) := by
  rw [dedupQuery, hq]

theorem dedupQuery_of_none (s : InflightState) (key : String)
    (hq : mapGet s.inflight key = none) :
    dedupQuery s key =
      (⟨mapSet s.inflight key s.nextOp, s.nextOp + 1, s.settled⟩, s.nextOp, true) := by
  rw [dedupQuery, hq]

theorem dedupInv_init : DedupInv ⟨[], 0, []⟩ := by
  refine ⟨List.nodup_nil, List.nodup_nil, ?_, ?_, List.nodup_nil⟩
  · intro p hp
    cases hp
  · intro h hh
    cases hh

theorem dedupInv_step (s : InflightState) (e : DedupEvent) (hinv : DedupInv s) :
    DedupInv (dedupStep s e) := by
  obtain ⟨hkeys, hops, hpair, hset, hsnd⟩ := hinv
  cases e with
  | query key =>
    rw [show dedupStep s (DedupEvent.query key) = (dedupQuery s key).1 from rfl]
    cases hq : mapGet s.inflight key with
    | some h =>
      rw [dedupQuery_of_some s key h hq]
      exact ⟨hkeys, hops, hpair, hset, hsnd⟩
    | none =>
      rw [dedupQuery_of_none s key hq]
      have hnotin : key ∉ mapKeys s.inflight := (mapGet_eq_none_iff _ _).mp hq
      have happ : mapSet s.inflight key s.nextOp =
          s.inflight ++ [(key, s.nextOp)] := mapSet_absent_eq_append _ _ _ hnotin
      refine ⟨nodup_mapKeys_mapSet _ _ _ hkeys, ?_, ?_, ?_, hsnd⟩
      · rw [happ, List.map_append]
        have hnew : s.nextOp ∉ s.inflight.map (fun p => p.2) := by
          intro hc
          rcases List.mem_map.mp hc with ⟨p, hp, hpe⟩
          have := (hpair p hp).1
          omega
        simp [List.nodup_append, hops, hnew]
      · intro p hp
        rw [happ] at hp
        rcases List.mem_append.mp hp with h1 | h1
        · exact ⟨Nat.lt_succ_of_lt (hpair p h1).1, (hpair p h1).2⟩
        · rw [List.mem_singleton.mp h1]
          refine ⟨Nat.lt_succ_self _, ?_⟩
          intro hc
          have := hset _ hc
          omega
      · intro h hh
        exact Nat.lt_succ_of_lt (hset h hh)
  | settle key =>
    cases hq : mapGet s.inflight key with
    | none =>
      rw [show dedupStep s (DedupEvent.settle key) = s from by
        rw [dedupStep]
        rw [hq]]
      exact ⟨hkeys, hops, hpair, hset, hsnd⟩
    | some h =>
      rw [show dedupStep s (DedupEvent.settle key) = dedupSettle s key h from by
        rw [dedupStep]
        rw [hq]]
      rw [dedupSettle]
      have hmem : (key, h) ∈ s.inflight := mapGet_some_mem _ _ _ hq
      have hh := hpair _ hmem
      refine ⟨nodup_mapKeys_mapDelete _ _ hkeys, ?_, ?_, ?_, ?_⟩
      · exact ((mapDelete_sublist s.inflight key).map _).nodup hops
      · intro p hp
        have hpin : p ∈ s.inflight := (mapDelete_sublist s.inflight key).subset hp
        have hp2 := hpair p hpin
        refine ⟨hp2.1, ?_⟩
        intro hc
        rcases List.mem_cons.mp hc with h1 | h1
        · have hpk : p = (key, h) :=
            List.inj_on_of_nodup_map hops hpin hmem h1
          have hkmem : key ∈ mapKeys (mapDelete s.inflight key) :=
            List.mem_map.mpr ⟨p, hp, by rw [hpk]⟩
          have hnone := mapGet_mapDelete_self s.inflight key hkeys
          rw [mapGet_eq_none_iff] at hnone
          exact hnone hkmem
        · exact hp2.2 h1
      · intro x hx
        rcases List.mem_cons.mp hx with h1 | h1
        · rw [h1]
          exact hh.1
        · exact hset x h1
      · exact List.nodup_cons.mpr ⟨hh.2, hsnd⟩

theorem dedupInv_foldl (es : List DedupEvent) :
    ∀ s : InflightState, DedupInv s → DedupInv (es.foldl dedupStep s) := by
  induction es with
  | nil => intro s hs; exact hs
  | cons e es ih =>
    intro s hs
    rw [List.foldl_cons]
    exact ih _ (dedupInv_step s e hs)

theorem dedupInv_run (evs : List DedupEvent) : DedupInv (dedupRun evs) := by
  rw [dedupRun]
  exact dedupInv_foldl evs _ dedupInv_init

/-! ## Retry lemmas -/

theorem retryFrom_terminal (transport : Nat → Except AxiosErrorInfo α)
    (rd a budget : Nat) (e : AxiosErrorInfo) (he : transport a = .error e)
    (hre : isRetryableError e = false) :
    retryFrom transport rd a budget = (.error e, []) := by
  cases budget with
  | zero =>
    simp only [retryFrom, he]
  | succ b =>
    simp only [retryFrom, he]
    rw [if_neg (by simp [hre])]

theorem retryFrom_ok (transport : Nat → Except AxiosErrorInfo α) (rd : Nat) :
    ∀ (k a : Nat) (v : α),
      (∀ i, a ≤ i → i < a + k →
        ∃ e, transport i = .error e ∧ isRetryableError e = true) →
      transport (a + k) = .ok v →
      retryFrom transport rd a k =
        (.ok v, (List.range' (a + 1) k).map (fun i => rd * i)) := by
  intro k
  induction k with
  | zero =>
    intro a v _ hok
    rw [Nat.add_zero] at hok
    simp only [retryFrom, hok]
    rfl
  | succ k ih =>
    intro a v hfail hok
    rcases hfail a (Nat.le_refl a) (by omega) with ⟨e, he, hre⟩
    have hok2 : transport (a + 1 + k) = .ok v := by
      rw [show a + 1 + k = a + (k + 1) from by omega]
      exact hok
    have hfail2 : ∀ i, a + 1 ≤ i → i < a + 1 + k →
        ∃ e, transport i = .error e ∧ isRetryableError e = true := by
      intro i h1 h2
      exact hfail i (by omega) (by omega)
    have ihx := ih (a + 1) v hfail2 hok2
    simp only [retryFrom, he]
    rw [if_pos hre, ihx, List.range'_succ, List.map_cons]

theorem chain_le_delays (rd : Nat) : ∀ (k a : Nat),
    List.Chain' (· ≤ ·) ((List.range' a k).map (fun i => rd * i)) := by
  intro k
  induction k with
  | zero => intro a; simp
  | succ k ih =>
    intro a
    rw [List.range'_succ, List.map_cons]
    cases k with
    | zero => simp
    | succ m =>
      rw [List.range'_succ, List.map_cons, List.chain'_cons]
      constructor
      · exact Nat.mul_le_mul_left rd (Nat.le_succ a)
      · have := ih (a + 1)
        rw [List.range'_succ, List.map_cons] at this
        exact this

theorem insertPairs_append (c : CacheState α) (d : α) (inst : String)
    (ps qs : List (String × Nat)) :
    insertPairs c d inst (ps ++ qs) =
      insertPairs (insertPairs c d inst ps) d inst qs := by
  induction ps generalizing c with
  | nil => rfl
  | cons p ps ih =>
    obtain ⟨k, tm⟩ := p
    rw [List.cons_append,
      show insertPairs c d inst ((k, tm) :: (ps ++ qs)) =
        insertPairs (cacheSet c tm k d inst) d inst (ps ++ qs) from rfl,
      ih, show insertPairs c d inst ((k, tm) :: ps) =
        insertPairs (cacheSet c tm k d inst) d inst ps from rfl]

/-! ## Claim theorems -/

/-- Claim C1 (amended): after `set(key, payload, instance)` at instant `now`,
`get(key)` at any read instant `read ≤ now + ttl` returns the stored payload
and leaves the store unchanged, while at any `read > now + ttl` it returns
absent and removes the entry.  (The claim's boundary `read = now + ttl` is
a hit, not a miss: `isExpired` uses a strict comparison.) -/
theorem claim_c1_ttl_expiry (α : Type) (c : CacheState α) (now : Nat)
    (key : String) (data : α) (inst : String) (read : Nat)
    (hnd : (mapKeys c.memoryCache).Nodup) :
    (read ≤ now + c.ttl →
      (cacheGet (cacheSet c now key data inst) read key).1 = some data ∧
      (cacheGet (cacheSet c now key data inst) read key).2 =
        cacheSet c now key data inst) ∧
    (now + c.ttl < read →
      (cacheGet (cacheSet c now key data inst) read key).1 = none ∧
      mapGet (cacheGet (cacheSet c now key data inst) read key).2.memoryCache
        key = none) := by
  have hget := mapGet_cacheSet_self c now key data inst
  have httl : (cacheSet c now key data inst).ttl = c.ttl := rfl
  constructor
  · intro hle
    have hexp : isExpired (cacheSet c now key data inst) read
        ⟨data, now, inst⟩ = false := by
      simp only [isExpired, httl, decide_eq_false_iff_not, Nat.not_lt]
      omega
    constructor
    · simp [cacheGet, hget, hexp]
    · simp [cacheGet, hget, hexp]
  · intro hlt
    have hexp : isExpired (cacheSet c now key data inst) read
        ⟨data, now, inst⟩ = true := by
      simp only [isExpired, httl, decide_eq_true_eq]
      omega
    constructor
    · simp [cacheGet, hget, hexp]
    · simp only [cacheGet, hget, hexp]
      simp only [if_true]
      exact mapGet_mapDelete_self _ _ (nodup_cacheSet c now key data inst hnd)

/-- Witness for C1: ttl 5, insertion at 0; a read at 4 hits, a read at 6
misses. -/
theorem claim_c1_ttl_expiry_witness :
    (cacheGet (cacheSet (⟨[], 5, 10⟩ : CacheState Nat) 0 "k" 7 "i") 4 "k").1 =
      some 7 ∧
    (cacheGet (cacheSet (⟨[], 5, 10⟩ : CacheState Nat) 0 "k" 7 "i") 6 "k").1 =
      none := by
  constructor
  · exact ((claim_c1_ttl_expiry Nat ⟨[], 5, 10⟩ 0 "k" 7 "i" 4 (by decide)).1
      (by decide)).1
  · exact ((claim_c1_ttl_expiry Nat ⟨[], 5, 10⟩ 0 "k" 7 "i" 6 (by decide)).2
      (by decide)).1

/-- Counterexample to C1 as stated: with `ttl = 5` and insertion at time 0,
a `get` at read time `5 = 0 + ttl` (so "at or after T+ttl") still returns
the payload, where the claim requires absent — `isExpired` is
`now - timestamp > ttl`, a strict comparison. -/
theorem claim_c1_counterexample :
    (cacheGet (cacheSet (⟨[], 5, 10⟩ : CacheState Nat) 0 "k" 7 "i") 5 "k").1 =
      some 7 := by decide

/-- Claim C3 (amended): `set` on an already-present key below capacity
overwrites in place — the store keeps the same keys, the same size, and all
other entries are untouched.  But when the store is at `maxEntries`, `set`
first evicts the oldest entry even when the key is already present; hence
two identical `set` calls leave `getStats().entries` unchanged only when the
store is below capacity at the second call. -/
theorem claim_c3_overwrite_semantics (α : Type) (c : CacheState α)
    (now now2 : Nat) (k : String) (d : α) (i : String) :
    (c.memoryCache.length < c.maxEntries → k ∈ mapKeys c.memoryCache →
      (cacheSet c now k d i).memoryCache = mapSet c.memoryCache k ⟨d, now, i⟩ ∧
      mapKeys (cacheSet c now k d i).memoryCache = mapKeys c.memoryCache ∧
      (cacheSet c now k d i).memoryCache.length = c.memoryCache.length ∧
      (∀ k2, k2 ≠ k → mapGet (cacheSet c now k d i).memoryCache k2 =
        mapGet c.memoryCache k2)) ∧
    (c.memoryCache.length ≥ c.maxEntries →
      (cacheSet c now k d i).memoryCache =
        mapSet (evictOldest c.memoryCache) k ⟨d, now, i⟩) ∧
    ((cacheSet c now k d i).memoryCache.length < c.maxEntries →
      getStats (cacheSet (cacheSet c now k d i) now2 k d i) =
        getStats (cacheSet c now k d i)) := by
  refine ⟨?_, ?_, ?_⟩
  · intro hlen hmem
    have hbelow := cacheSet_memoryCache_below_capacity c now k d i hlen
    refine ⟨hbelow, ?_, ?_, ?_⟩
    · rw [hbelow]
      exact mapKeys_mapSet_present _ _ _ hmem
    · rw [hbelow]
      exact length_mapSet_present _ _ _ hmem
    · intro k2 hk2
      rw [hbelow]
      exact mapGet_mapSet_ne _ _ _ _ hk2
  · intro hge
    exact cacheSet_memoryCache_at_capacity c now k d i hge
  · intro h2
    have hkmem : k ∈ mapKeys (cacheSet c now k d i).memoryCache := by
      rw [← mapGet_isSome_iff, mapGet_cacheSet_self]
      rfl
    have hbelow := cacheSet_memoryCache_below_capacity
      (cacheSet c now k d i) now2 k d i h2
    rw [getStats, getStats, hbelow, length_mapSet_present _ _ _ hkmem]
    rfl

/-- Witness for C3: a one-entry store below capacity; the overwrite keeps
the key set, and the repeated identical `set` keeps `getStats` unchanged. -/
theorem claim_c3_overwrite_semantics_witness :
    mapKeys (cacheSet (⟨[("k", ⟨1, 0, "i"⟩)], 5, 10⟩ : CacheState Nat)
        3 "k" 2 "i").memoryCache =
      mapKeys (⟨[("k", ⟨1, 0, "i"⟩)], 5, 10⟩ : CacheState Nat).memoryCache ∧
    getStats (cacheSet (cacheSet (⟨[("k", ⟨1, 0, "i"⟩)], 5, 10⟩ :
        CacheState Nat) 3 "k" 2 "i") 4 "k" 2 "i") =
      getStats (cacheSet (⟨[("k", ⟨1, 0, "i"⟩)], 5, 10⟩ : CacheState Nat)
        3 "k" 2 "i") := by
  constructor
  · exact ((claim_c3_overwrite_semantics Nat ⟨[("k", ⟨1, 0, "i"⟩)], 5, 10⟩
      3 4 "k" 2 "i").1 (by decide) (by decide)).2.1
  · exact (claim_c3_overwrite_semantics Nat ⟨[("k", ⟨1, 0, "i"⟩)], 5, 10⟩
      3 4 "k" 2 "i").2.2 (by decide)

/-- Counterexample to C3 as stated: `maxEntries = 2`; insert `k1`, insert
`k2`, then `set` `k2` again with identical arguments.  The second identical
`set` finds the store at capacity and evicts `k1` (a *different* entry) even
though `k2` is already present, and `getStats().entries` drops from 2 to 1,
where the claim requires no other entry to be evicted and the count to be
unchanged. -/
theorem claim_c3_counterexample :
    (getStats (cacheSet (⟨[], 1000, 2⟩ : CacheState Nat) 0 "k1" 1 "i")).1 +
        1 = 2 ∧
    (getStats (cacheSet (cacheSet (⟨[], 1000, 2⟩ : CacheState Nat) 0 "k1" 1
        "i") 1 "k2" 2 "i")).1 = 2 ∧
    (getStats (cacheSet (cacheSet (cacheSet (⟨[], 1000, 2⟩ : CacheState Nat)
        0 "k1" 1 "i") 1 "k2" 2 "i") 1 "k2" 2 "i")).1 = 1 ∧
    mapGet (cacheSet (cacheSet (cacheSet (⟨[], 1000, 2⟩ : CacheState Nat)
        0 "k1" 1 "i") 1 "k2" 2 "i") 1 "k2" 2 "i").memoryCache "k1" =
      none := by decide

/-- Claim C4 (amended): every `set` writes a fresh entry with
`timestamp = Date.now()`, so a `set` on an already-present key *does*
refresh `insertedAt` to the overwrite instant: afterwards the entry under
the key is exactly `⟨payload, now, instance⟩`, and it expires and ranks for
eviction by the overwrite instant, not the first insertion. -/
theorem claim_c4_set_refreshes_timestamp (α : Type) (c : CacheState α)
    (now : Nat) (k : String) (d : α) (i : String) :
    mapGet (cacheSet c now k d i).memoryCache k = some ⟨d, now, i⟩ :=
  mapGet_cacheSet_self c now k d i

/-- Counterexample to C4 as stated: insert `k` at time 0, overwrite it at
time 10 — the stored `insertedAt` becomes 10, not the original 0 the claim
requires the entry to keep. -/
theorem claim_c4_counterexample :
    (mapGet (cacheSet (cacheSet (⟨[], 1000, 10⟩ : CacheState Nat) 0 "k" 5
        "i") 10 "k" 5 "i").memoryCache "k").map CacheEntry.timestamp =
      some 10 ∧
    (mapGet (cacheSet (cacheSet (⟨[], 1000, 10⟩ : CacheState Nat) 0 "k" 5
        "i") 10 "k" 5 "i").memoryCache "k").map CacheEntry.timestamp ≠
      some 0 := by decide

/-- Claim C2 (amended): for a store with unique, non-empty keys, at most
`maxEntries ≥ 1` entries: (i) after any `set` the store still holds at most
`maxEntries` entries; (ii) when the store is at `maxEntries` before the
call, exactly one entry — one holding a minimal `insertedAt` — is deleted by
`evictOldest` before the new entry is inserted; (iii) inserting
`maxEntries + 1` distinct keys with strictly increasing insertion times into
an empty store leaves exactly `maxEntries` entries, with the
earliest-inserted key evicted and every other key still present.  (The
side conditions are forced: a store loaded over capacity, a `maxEntries` of
0, or an empty-string key — which the `if (oldestKey)` truthiness test in
`evictOldest` treats like `null` — all break the claim as stated.) -/
theorem claim_c2_capacity_eviction (α : Type) :
    (∀ (c : CacheState α) (now : Nat) (k : String) (d : α) (i : String),
      (mapKeys c.memoryCache).Nodup →
      c.memoryCache.length ≤ c.maxEntries → 1 ≤ c.maxEntries →
      "" ∉ mapKeys c.memoryCache →
      (cacheSet c now k d i).memoryCache.length ≤ c.maxEntries) ∧
    (∀ (c : CacheState α) (now : Nat) (k : String) (d : α) (i : String),
      (mapKeys c.memoryCache).Nodup → 1 ≤ c.maxEntries →
      "" ∉ mapKeys c.memoryCache →
      c.memoryCache.length = c.maxEntries →
      ∃ k0 e0, mapGet c.memoryCache k0 = some e0 ∧
        (∀ p ∈ c.memoryCache, e0.timestamp ≤ p.2.timestamp) ∧
        evictOldest c.memoryCache = mapDelete c.memoryCache k0 ∧
        (evictOldest c.memoryCache).length + 1 = c.memoryCache.length ∧
        (cacheSet c now k d i).memoryCache =
          mapSet (mapDelete c.memoryCache k0) k ⟨d, now, i⟩) ∧
    (∀ (ttl : Nat) (d : α) (inst k0 : String) (t0 : Nat)
        (mid : List (String × Nat)) (klast : String) (tlast : Nat),
      ((((k0, t0) :: mid) ++ [(klast, tlast)]).map Prod.fst).Nodup →
      k0 ≠ "" →
      (∀ p ∈ mid ++ [(klast, tlast)], t0 < p.2) →
      (insertPairs (⟨[], ttl, mid.length + 1⟩ : CacheState α) d inst
          (((k0, t0) :: mid) ++ [(klast, tlast)])).memoryCache.length =
        mid.length + 1 ∧
      mapGet (insertPairs (⟨[], ttl, mid.length + 1⟩ : CacheState α) d inst
          (((k0, t0) :: mid) ++ [(klast, tlast)])).memoryCache k0 = none ∧
      mapGet (insertPairs (⟨[], ttl, mid.length + 1⟩ : CacheState α) d inst
          (((k0, t0) :: mid) ++ [(klast, tlast)])).memoryCache klast =
        some ⟨d, tlast, inst⟩ ∧
      ∀ p ∈ mid, mapGet (CacheState.memoryCache (insertPairs
          (⟨[], ttl, mid.length + 1⟩ : CacheState α) d inst
          (((k0, t0) :: mid) ++ [(klast, tlast)]))) p.1 =
        some ⟨d, p.2, inst⟩) := by
  refine ⟨?_, ?_, ?_⟩
  · -- (i) the bound is preserved
    intro c now k d i hnd hlen hmax hno
    by_cases hge : c.memoryCache.length ≥ c.maxEntries
    · have hcap := cacheSet_memoryCache_at_capacity c now k d i hge
      have hnonnil : c.memoryCache ≠ [] := by
        intro hc
        rw [hc] at hge
        simp at hge
        omega
      have hev := length_evictOldest c.memoryCache hnonnil hno
      calc (cacheSet c now k d i).memoryCache.length
          ≤ (evictOldest c.memoryCache).length + 1 := by
            rw [hcap]; exact length_mapSet_le _ _ _
        _ = c.memoryCache.length := hev
        _ ≤ c.maxEntries := hlen
    · rw [cacheSet_memoryCache_below_capacity c now k d i (Nat.not_le.mp hge)]
      calc (mapSet c.memoryCache k (⟨d, now, i⟩ : CacheEntry α)).length
          ≤ c.memoryCache.length + 1 := length_mapSet_le _ _ _
        _ ≤ c.maxEntries := Nat.not_le.mp hge
  · -- (ii) at capacity, exactly one minimal-timestamp entry is evicted
    intro c now k d i hnd hmax hno heq
    have hnonnil : c.memoryCache ≠ [] := by
      intro hc
      rw [hc] at heq
      simp at heq
      omega
    rcases oldest_exists c.memoryCache hnonnil with ⟨k0, e0, hmem, hfold, hmin⟩
    have hk0 : k0 ∈ mapKeys c.memoryCache :=
      List.mem_map.mpr ⟨(k0, e0), hmem, rfl⟩
    have hk0ne : k0 ≠ "" := fun hc => hno (hc ▸ hk0)
    have hev := evictOldest_of_fold_some c.memoryCache k0 e0.timestamp hfold hk0ne
    refine ⟨k0, e0, mapGet_of_mem_nodup _ _ _ hnd hmem, hmin, hev, ?_, ?_⟩
    · rw [hev]
      exact length_mapDelete_of_mem _ _ hk0
    · rw [cacheSet_memoryCache_at_capacity c now k d i (Nat.le_of_eq heq.symm),
        hev]
  · -- (iii) the maxEntries + 1 insertion scenario
    intro ttl d inst k0 t0 mid klast tlast hkeys hk0 hord
    rw [List.map_append] at hkeys
    have hfkeys : (((k0, t0) :: mid).map Prod.fst).Nodup :=
      hkeys.of_append_left
    have hdisj : klast ∉ ((k0, t0) :: mid).map Prod.fst := by
      intro hc
      exact (List.nodup_append.mp hkeys).2.2 hc (by simp)
    have hfront := insertPairs_fresh d inst ((k0, t0) :: mid)
      ⟨[], ttl, mid.length + 1⟩
      (by intro p _ hc; exact List.not_mem_nil _ hc)
      hfkeys
      (by simp)
    have hwhole : insertPairs (⟨[], ttl, mid.length + 1⟩ : CacheState α) d
        inst (((k0, t0) :: mid) ++ [(klast, tlast)]) =
        cacheSet (insertPairs (⟨[], ttl, mid.length + 1⟩ : CacheState α) d
          inst ((k0, t0) :: mid)) tlast klast d inst := by
      rw [insertPairs_append]
      rfl
    have hmidE : ((k0, t0) :: mid).map
        (fun p => (p.1, (⟨d, p.2, inst⟩ : CacheEntry α))) =
        (k0, (⟨d, t0, inst⟩ : CacheEntry α)) :: mid.map
          (fun p => (p.1, (⟨d, p.2, inst⟩ : CacheEntry α))) := rfl
    have hmidKeys : mapKeys (mid.map
        (fun p => (p.1, (⟨d, p.2, inst⟩ : CacheEntry α)))) =
        mid.map Prod.fst := by
      simp [mapKeys, List.map_map]
    have hmidMin : ∀ p ∈ mid.map
        (fun p => (p.1, (⟨d, p.2, inst⟩ : CacheEntry α))),
        (⟨d, t0, inst⟩ : CacheEntry α).timestamp ≤ p.2.timestamp := by
      intro p hp
      rcases List.mem_map.mp hp with ⟨q, hq, hqe⟩
      rw [← hqe]
      exact Nat.le_of_lt (hord q (List.mem_append.mpr (Or.inl hq)))
    have hfold : ((k0, (⟨d, t0, inst⟩ : CacheEntry α)) :: mid.map
        (fun p => (p.1, (⟨d, p.2, inst⟩ : CacheEntry α)))).foldl oldestStep
        none = some (k0, t0) := by
      rw [List.foldl_cons]
      exact oldestStep_keeps _ k0 t0 hmidMin
    have hklastmid : klast ∉ mapKeys (mid.map
        (fun p => (p.1, (⟨d, p.2, inst⟩ : CacheEntry α)))) := by
      rw [hmidKeys]
      intro hc
      exact hdisj (by simp [hc])
    have hmemfinal : (insertPairs (⟨[], ttl, mid.length + 1⟩ : CacheState α)
        d inst (((k0, t0) :: mid) ++ [(klast, tlast)])).memoryCache =
        mid.map (fun p => (p.1, (⟨d, p.2, inst⟩ : CacheEntry α))) ++
          [(klast, ⟨d, tlast, inst⟩)] := by
      rw [hwhole, hfront]
      have hcap : ((⟨[] ++ ((k0, t0) :: mid).map
          (fun p => (p.1, (⟨d, p.2, inst⟩ : CacheEntry α))), ttl,
          mid.length + 1⟩ : CacheState α)).memoryCache.length ≥
          ((⟨[] ++ ((k0, t0) :: mid).map
            (fun p => (p.1, (⟨d, p.2, inst⟩ : CacheEntry α))), ttl,
            mid.length + 1⟩ : CacheState α)).maxEntries := by
        simp
      rw [cacheSet_memoryCache_at_capacity _ _ _ _ _ hcap]
      have hevict : evictOldest ((⟨[] ++ ((k0, t0) :: mid).map
          (fun p => (p.1, (⟨d, p.2, inst⟩ : CacheEntry α))), ttl,
          mid.length + 1⟩ : CacheState α)).memoryCache =
          mid.map (fun p => (p.1, (⟨d, p.2, inst⟩ : CacheEntry α))) := by
        rw [show ((⟨[] ++ ((k0, t0) :: mid).map
          (fun p => (p.1, (⟨d, p.2, inst⟩ : CacheEntry α))), ttl,
          mid.length + 1⟩ : CacheState α)).memoryCache =
          (k0, (⟨d, t0, inst⟩ : CacheEntry α)) :: mid.map
            (fun p => (p.1, (⟨d, p.2, inst⟩ : CacheEntry α))) from by
          rw [List.nil_append, hmidE]]
        rw [evictOldest_of_fold_some _ k0 t0 hfold hk0, mapDelete, if_pos rfl]
      rw [hevict, mapSet_absent_eq_append _ _ _ hklastmid]
    have hfinKeys : mapKeys (mid.map
        (fun p => (p.1, (⟨d, p.2, inst⟩ : CacheEntry α))) ++
          [(klast, (⟨d, tlast, inst⟩ : CacheEntry α))]) =
        mid.map Prod.fst ++ [klast] := by
      rw [mapKeys, List.map_append, ← mapKeys, hmidKeys]
      rfl
    have hmidnd : (mid.map Prod.fst).Nodup := (List.nodup_cons.mp hfkeys).2
    have hk0mid : k0 ∉ mid.map Prod.fst := (List.nodup_cons.mp hfkeys).1
    have hk0last : k0 ≠ klast := by
      intro hc
      exact hdisj (by simp [← hc])
    refine ⟨?_, ?_, ?_, ?_⟩
    · rw [hmemfinal]
      simp
    · rw [hmemfinal]
      apply mapGet_eq_none_of_not_mem
      rw [hfinKeys]
      intro hc
      rcases List.mem_append.mp hc with h1 | h1
      · exact hk0mid h1
      · exact hk0last (List.mem_singleton.mp h1)
    · rw [hmemfinal, mapGet_append_of_not_mem _ _ _ hklastmid, mapGet,
        if_pos rfl]
    · intro p hp
      rw [hmemfinal]
      apply mapGet_of_mem_nodup
      · rw [hfinKeys]
        have : klast ∉ mid.map Prod.fst := by
          intro hc
          exact hdisj (by simp [hc])
        simp [List.nodup_append, hmidnd, this]
      · exact List.mem_append.mpr (Or.inl (List.mem_map.mpr ⟨p, hp, rfl⟩))

/-- Witness for C2: the spec's concrete scenario — `maxEntries = 2`,
`ttl = 60000`, keys `k1`,`k2`,`k3` inserted at times 0, 100, 200; `k1` is
evicted and `k2`,`k3` remain. -/
theorem claim_c2_capacity_eviction_witness :
    (cacheSet (⟨[("k1", ⟨9, 0, "i"⟩)], 60000, 2⟩ : CacheState Nat) 100 "k2" 9
        "i").memoryCache.length ≤ 2 ∧
    (insertPairs (⟨[], 60000, 2⟩ : CacheState Nat) 9 "i"
        [("k1", 0), ("k2", 100), ("k3", 200)]).memoryCache.length = 2 ∧
    mapGet (insertPairs (⟨[], 60000, 2⟩ : CacheState Nat) 9 "i"
        [("k1", 0), ("k2", 100), ("k3", 200)]).memoryCache "k1" = none ∧
    mapGet (insertPairs (⟨[], 60000, 2⟩ : CacheState Nat) 9 "i"
        [("k1", 0), ("k2", 100), ("k3", 200)]).memoryCache "k3" =
      some ⟨9, 200, "i"⟩ := by
  have h1 := (claim_c2_capacity_eviction Nat).1
    ⟨[("k1", ⟨9, 0, "i"⟩)], 60000, 2⟩ 100 "k2" 9 "i"
    (by decide) (by decide) (by decide) (by decide)
  have h3 := (claim_c2_capacity_eviction Nat).2.2 60000 9 "i" "k1" 0
    [("k2", 100)] "k3" 200 (by decide) (by decide) (by decide)
  exact ⟨h1, h3.1, h3.2.1, h3.2.2.1⟩

/-- Counterexample to C2 as stated: a store at `maxEntries = 2` whose oldest
entry has the empty-string key.  `evictOldest` finds it, but the JavaScript
truthiness test `if (oldestKey)` treats `""` like `null`, so nothing is
evicted and the store grows to 3 entries, exceeding `maxEntries`. -/
theorem claim_c2_counterexample :
    (cacheSet (⟨[("", ⟨9, 0, "i"⟩), ("k", ⟨9, 1, "i"⟩)], 1000, 2⟩ :
        CacheState Nat) 2 "x" 9 "i").memoryCache.length = 3 ∧
    (⟨[("", ⟨9, 0, "i"⟩), ("k", ⟨9, 1, "i"⟩)], 1000, 2⟩ :
        CacheState Nat).maxEntries = 2 ∧
    (mapKeys (⟨[("", ⟨9, 0, "i"⟩), ("k", ⟨9, 1, "i"⟩)], 1000, 2⟩ :
        CacheState Nat).memoryCache).Nodup ∧
    (⟨[("", ⟨9, 0, "i"⟩), ("k", ⟨9, 1, "i"⟩)], 1000, 2⟩ :
        CacheState Nat).memoryCache.length = 2 := by decide

/-- Claim C5: `makeKey` is a pure function equal to
`instanceId ++ ":" ++ normalized` where the normalization collapses every
whitespace run to one space and trims — canonically, the single-space join
of the query's whitespace-free words; hence two query texts with the same
word sequence (differing only in whitespace layout) give identical keys, and
distinct instance ids give distinct keys for the same query. -/
theorem claim_c5_makeKey :
    (∀ a q : String, makeKey a q =
      a ++ ":" ++ String.mk (List.intercalate [' '] (wordsWS q.data))) ∧
    (∀ a q1 q2 : String, wordsWS q1.data = wordsWS q2.data →
      makeKey a q1 = makeKey a q2) ∧
    (∀ a b q : String, a ≠ b → makeKey a q ≠ makeKey b q) := by
  have hform : ∀ a q : String, makeKey a q =
      a ++ ":" ++ String.mk (List.intercalate [' '] (wordsWS q.data)) := by
    intro a q
    rw [makeKey, normalizeText_eq_intercalate_words]
  refine ⟨hform, ?_, ?_⟩
  · intro a q1 q2 hw
    rw [hform, hform, hw]
  · intro a b q hne heq
    apply hne
    rw [hform, hform] at heq
    have hd := congrArg String.data heq
    simp only [String.data_append, List.append_assoc] at hd
    have h3 : a.data = b.data := List.append_cancel_right hd
    exact congrArg String.mk h3

/-- Witness for C5: two layouts of the same query give one key; two
instances give different keys. -/
theorem claim_c5_makeKey_witness :
    makeKey "wd" "SELECT  ?x\nWHERE" = makeKey "wd" " SELECT ?x WHERE " ∧
    makeKey "a" "q" ≠ makeKey "b" "q" := by
  constructor
  · exact claim_c5_makeKey.2.1 "wd" "SELECT  ?x\nWHERE" " SELECT ?x WHERE "
      (by decide)
  · exact claim_c5_makeKey.2.2 "a" "b" "q" (by decide)

/-- Claim C6: the in-flight registry holds at most one pending handle per
key in every reachable state; a `query` that observes an existing handle
returns that same handle, starts no new network operation and leaves the
registry unchanged (so two consecutive consultations share one handle and
hence one eventual result); and when the operation registered under a key
settles — success or failure alike — its entry is removed and the operation
is recorded as settled exactly once. -/
theorem claim_c6_inflight_dedup :
    (∀ evs : List DedupEvent, (mapKeys (dedupRun evs).inflight).Nodup) ∧
    (∀ (s : InflightState) (key : String) (h : Nat),
      mapGet s.inflight key = some h → dedupQuery s key = (s, h, false)) ∧
    (∀ (s : InflightState) (key : String),
      (dedupQuery (dedupQuery s key).1 key).2.1 = (dedupQuery s key).2.1 ∧
      (dedupQuery (dedupQuery s key).1 key).2.2 = false) ∧
    (∀ (evs : List DedupEvent) (key : String) (h : Nat),
      mapGet (dedupRun evs).inflight key = some h →
      h ∉ (dedupRun evs).settled ∧
      dedupStep (dedupRun evs) (DedupEvent.settle key) =
        dedupSettle (dedupRun evs) key h ∧
      mapGet (dedupSettle (dedupRun evs) key h).inflight key = none ∧
      h ∈ (dedupSettle (dedupRun evs) key h).settled ∧
      (dedupSettle (dedupRun evs) key h).settled.Nodup) := by
  refine ⟨?_, ?_, ?_, ?_⟩
  · intro evs
    exact (dedupInv_run evs).1
  · intro s key h hq
    exact dedupQuery_of_some s key h hq
  · intro s key
    cases hq : mapGet s.inflight key with
    | some h =>
      simp [dedupQuery_of_some s key h hq]
    | none =>
      rw [dedupQuery_of_none s key hq]
      have hq2 := dedupQuery_of_some
        (⟨mapSet s.inflight key s.nextOp, s.nextOp + 1, s.settled⟩ :
          InflightState) key s.nextOp (mapGet_mapSet_self _ _ _)
      simp [hq2]
  · intro evs key h hq
    have hinv := dedupInv_run evs
    have hmem := mapGet_some_mem _ _ _ hq
    have hps := hinv.2.2.1 _ hmem
    refine ⟨hps.2, ?_, ?_, ?_, ?_⟩
    · rw [dedupStep]
      rw [hq]
    · rw [dedupSettle]
      exact mapGet_mapDelete_self _ _ hinv.1
    · rw [dedupSettle]
      exact List.mem_cons_self _ _
    · rw [dedupSettle]
      exact List.nodup_cons.mpr ⟨hps.2, hinv.2.2.2.2⟩

/-- Witness for C6: a registry with operation 0 pending under "k" — a query
joins it without a new operation; after the single query event, settling op
0 removes the entry. -/
theorem claim_c6_inflight_dedup_witness :
    dedupQuery (⟨[("k", 0)], 1, []⟩ : InflightState) "k" =
      ((⟨[("k", 0)], 1, []⟩ : InflightState), 0, false) ∧
    (0 ∉ (dedupRun [DedupEvent.query "k"]).settled ∧
      mapGet (dedupSettle (dedupRun [DedupEvent.query "k"]) "k" 0).inflight
        "k" = none) := by
  constructor
  · exact claim_c6_inflight_dedup.2.1 ⟨[("k", 0)], 1, []⟩ "k" 0 (by decide)
  · have h := claim_c6_inflight_dedup.2.2.2 [DedupEvent.query "k"] "k" 0
      (by decide)
    exact ⟨h.1, h.2.2.1⟩

/-- Claim C7 evaluation at the failing schedule: with `maxConcurrent = 1`,
two requests arriving in the same synchronous turn both run `waitForSlot`
while `activeRequests = 0` (the increment happens only after the `await`
resumption), so after both microtask continuations run the gate holds two
executing requests — `activeRequests = 2` exceeds `maxConcurrent = 1`,
contradicting the claimed invariant. -/
theorem claim_c7_gate_bound_violated :
    (gateRun 1 [GateEvent.arrive 0, GateEvent.arrive 1, GateEvent.resume,
      GateEvent.resume]).map GateState.activeRequests = some 2 ∧
    (gateRun 1 [GateEvent.arrive 0, GateEvent.arrive 1, GateEvent.resume,
      GateEvent.resume]).map GateState.maxConcurrent = some 1 := by decide

/-- Claim C8 (amended): a failed attempt whose error is not retryable —
`isRetryableError`: no response, or status `≥ 500` (not only 5xx), or 429 —
is surfaced immediately with no backoff; and a transport failing retryably
on attempts `0 .. retries-1` and succeeding on attempt `retries` yields
overall success after exactly `retries + 1` attempts with delays
`retryDelay * 1, …, retryDelay * retries`, a monotonically non-decreasing
sequence. -/
theorem claim_c8_retry_policy (α : Type)
    (transport : Nat → Except AxiosErrorInfo α) (retries rd : Nat) :
    (∀ (a : Nat) (e : AxiosErrorInfo), transport a = .error e →
      isRetryableError e = false →
      executeWithRetry transport retries rd a = (.error e, [])) ∧
    (∀ v : α,
      (∀ i, i < retries → ∃ e, transport i = .error e ∧
        isRetryableError e = true) →
      transport retries = .ok v →
      executeWithRetry transport retries rd 0 =
        (.ok v, (List.range' 1 retries).map (fun i => rd * i)) ∧
      ((List.range' 1 retries).map (fun i => rd * i)).length = retries ∧
      List.Chain' (· ≤ ·) ((List.range' 1 retries).map (fun i => rd * i))) := by
  constructor
  · intro a e he hre
    rw [executeWithRetry]
    exact retryFrom_terminal transport rd a _ e he hre
  · intro v hfail hok
    refine ⟨?_, by simp, chain_le_delays rd retries 1⟩
    rw [executeWithRetry, Nat.sub_zero]
    exact retryFrom_ok transport rd retries 0 v
      (by intro i _ h2; exact hfail i (by omega))
      (by rw [Nat.zero_add]; exact hok)

/-- Witness for C8: a transport failing twice with a network error then
succeeding, with `retries = 2`, `retryDelay = 1000`: overall success after
3 attempts with non-decreasing delays 1000, 2000. -/
theorem claim_c8_retry_policy_witness :
    executeWithRetry (fun i => if i < 2 then (Except.error ⟨none⟩ :
        Except AxiosErrorInfo Nat) else Except.ok 42) 2 1000 0 =
      (Except.ok 42, [1000, 2000]) ∧
    List.Chain' (· ≤ ·) [1000, 2000] := by
  have hfail : ∀ i, i < 2 → ∃ e,
      (fun i => if i < 2 then (Except.error ⟨none⟩ :
        Except AxiosErrorInfo Nat) else Except.ok 42) i = .error e ∧
      isRetryableError e = true := by
    intro i hi
    refine ⟨⟨none⟩, ?_, rfl⟩
    simp [hi]
  have hok : (fun i => if i < 2 then (Except.error ⟨none⟩ :
      Except AxiosErrorInfo Nat) else Except.ok 42) 2 = .ok 42 := by
    simp
  have h := (claim_c8_retry_policy Nat (fun i => if i < 2 then
      (Except.error ⟨none⟩) else Except.ok 42) 2 1000).2 42 hfail hok
  constructor
  · rw [h.1]
    rfl
  · exact h.2.2

/-- Counterexample to C8 as stated: an HTTP status of 600 is neither 5xx
nor 429 — the claim classes it terminal — yet `isRetryableError` uses
`status >= 500` and the transport retries it twice with backoff. -/
theorem claim_c8_counterexample :
    isRetryableError ⟨some 600⟩ = true ∧
    claimRetryableClass ⟨some 600⟩ = false ∧
    executeWithRetry (fun _ => (Except.error ⟨some 600⟩ :
        Except AxiosErrorInfo Nat)) 2 1000 0 =
      (Except.error ⟨some 600⟩, [1000, 2000]) := ⟨rfl, rfl, rfl⟩

/-- Claim C9: for a configuration with `requiresAuthentication = true` and
`cookieBasedAuth = false`, `query()` refuses immediately with the
descriptive gate message: the cache, registry and transport are untouched
and zero network attempts are made, regardless of their state. -/
theorem claim_c9_auth_gate (α : Type) (cfg : WikibaseConfig)
    (h1 : cfg.requiresAuthentication = true) (h2 : cfg.cookieBasedAuth = false)
    (retries rd : Nat) (transport : Nat → Except AxiosErrorInfo α)
    (c : CacheState α) (reg : InflightState) (now : Nat) (sparql : String) :
    clientQuery cfg retries rd transport c reg now sparql =
      (.authRefused (authGateMessage cfg), c, reg) ∧
    countAttempts (clientQuery cfg retries rd transport c reg now sparql).1 =
      0 := by
  have hgate : (cfg.requiresAuthentication && !cfg.cookieBasedAuth) = true := by
    rw [h1, h2]
    rfl
  constructor
  · rw [clientQuery, if_pos hgate]
  · rw [clientQuery, if_pos hgate]
    rfl

/-- Witness for C9: a gated instance with a warm transport, a cache and a
registry — the call refuses with zero attempts. -/
theorem claim_c9_auth_gate_witness :
    clientQuery (⟨"wd", "Wikidata", true, false, none⟩ : WikibaseConfig) 2
        1000 (fun _ => (Except.ok 7 : Except AxiosErrorInfo Nat))
        (⟨[], 5, 10⟩ : CacheState Nat) (⟨[], 0, []⟩ : InflightState) 0 "q" =
      (.authRefused (authGateMessage ⟨"wd", "Wikidata", true, false, none⟩),
        (⟨[], 5, 10⟩ : CacheState Nat), (⟨[], 0, []⟩ : InflightState)) ∧
    countAttempts (clientQuery (⟨"wd", "Wikidata", true, false, none⟩ :
        WikibaseConfig) 2 1000 (fun _ => (Except.ok 7 :
        Except AxiosErrorInfo Nat)) (⟨[], 5, 10⟩ : CacheState Nat)
        (⟨[], 0, []⟩ : InflightState) 0 "q").1 = 0 :=
  claim_c9_auth_gate Nat ⟨"wd", "Wikidata", true, false, none⟩ rfl rfl 2 1000
    (fun _ => Except.ok 7) ⟨[], 5, 10⟩ ⟨[], 0, []⟩ 0 "q"

/-- Claim C10: `queryFresh` never reads or writes the in-flight registry —
the registry component of the state is returned unchanged, the resolution
path and cache effect are identical for any two registry states (in
particular when a `query()` is pending under the same key), every
non-gated call performs its own network execution (at least one attempt),
and a successful result is still written through to the cache. -/
theorem claim_c10_queryFresh_frame (α : Type) (cfg : WikibaseConfig)
    (retries rd : Nat) (transport : Nat → Except AxiosErrorInfo α)
    (c : CacheState α) (reg reg2 : InflightState) (now : Nat)
    (sparql : String) :
    (queryFresh cfg retries rd transport c reg now sparql).2.2 = reg ∧
    (queryFresh cfg retries rd transport c reg now sparql).1 =
      (queryFresh cfg retries rd transport c reg2 now sparql).1 ∧
    (queryFresh cfg retries rd transport c reg now sparql).2.1 =
      (queryFresh cfg retries rd transport c reg2 now sparql).2.1 ∧
    ((cfg.requiresAuthentication && !cfg.cookieBasedAuth) = false →
      (queryFresh cfg retries rd transport c reg now sparql).1 =
        QueryPath.executed (executeWithRetry transport retries rd 0).1
          (executeWithRetry transport retries rd 0).2 ∧
      1 ≤ countAttempts
        (queryFresh cfg retries rd transport c reg now sparql).1) ∧
    (∀ v : α, (cfg.requiresAuthentication && !cfg.cookieBasedAuth) = false →
      (executeWithRetry transport retries rd 0).1 = .ok v →
      (queryFresh cfg retries rd transport c reg now sparql).2.1 =
        cacheSet c now (makeKey cfg.id sparql) v cfg.id) := by
  by_cases hgate : (cfg.requiresAuthentication && !cfg.cookieBasedAuth) = true
  · have hq : ∀ rg : InflightState,
        queryFresh cfg retries rd transport c rg now sparql =
          (.authRefused (authGateMessage cfg), c, rg) := by
      intro rg
      rw [queryFresh, if_pos hgate]
    refine ⟨by rw [hq reg], by rw [hq reg, hq reg2], by rw [hq reg, hq reg2],
      ?_, ?_⟩
    · intro habs
      rw [habs] at hgate
      cases hgate
    · intro v habs _
      rw [habs] at hgate
      cases hgate
  · have hgf : (cfg.requiresAuthentication && !cfg.cookieBasedAuth) = false :=
      by simpa using hgate
    cases hr : (executeWithRetry transport retries rd 0).1 with
    | ok v =>
      have hq : ∀ rg : InflightState,
          queryFresh cfg retries rd transport c rg now sparql =
            (QueryPath.executed (Except.ok v)
              (executeWithRetry transport retries rd 0).2,
              cacheSet c now (makeKey cfg.id sparql) v cfg.id, rg) := by
        intro rg
        simp [queryFresh, hgf, hr]
      refine ⟨by rw [hq reg], by rw [hq reg, hq reg2],
        by rw [hq reg, hq reg2], ?_, ?_⟩
      · intro _
        constructor
        · rw [hq reg]
        · rw [hq reg]
          simp [countAttempts]
      · intro v2 _ hok
        rw [hq reg]
        injection hok with hv
        rw [hv]
    | error e =>
      have hq : ∀ rg : InflightState,
          queryFresh cfg retries rd transport c rg now sparql =
            (QueryPath.executed (Except.error e)
              (executeWithRetry transport retries rd 0).2, c, rg) := by
        intro rg
        simp [queryFresh, hgf, hr]
      refine ⟨by rw [hq reg], by rw [hq reg, hq reg2],
        by rw [hq reg, hq reg2], ?_, ?_⟩
      · intro _
        constructor
        · rw [hq reg]
        · rw [hq reg]
          simp [countAttempts]
      · intro v2 _ hok
        exact Except.noConfusion hok

/-- Witness for C10: a non-gated instance and a registry already holding a
pending operation for key `wd:q` — `queryFresh` leaves the registry
unchanged and writes its fresh result through the cache. -/
theorem claim_c10_queryFresh_frame_witness :
    (queryFresh (⟨"wd", "W", false, false, none⟩ : WikibaseConfig) 2 1000
        (fun _ => (Except.ok 7 : Except AxiosErrorInfo Nat))
        (⟨[], 5, 10⟩ : CacheState Nat)
        (⟨[("wd:q", 0)], 1, []⟩ : InflightState) 0 "q").2.2 =
      (⟨[("wd:q", 0)], 1, []⟩ : InflightState) ∧
    (queryFresh (⟨"wd", "W", false, false, none⟩ : WikibaseConfig) 2 1000
        (fun _ => (Except.ok 7 : Except AxiosErrorInfo Nat))
        (⟨[], 5, 10⟩ : CacheState Nat)
        (⟨[("wd:q", 0)], 1, []⟩ : InflightState) 0 "q").2.1 =
      cacheSet (⟨[], 5, 10⟩ : CacheState Nat) 0 (makeKey "wd" "q") 7 "wd" := by
  have h := claim_c10_queryFresh_frame Nat ⟨"wd", "W", false, false, none⟩ 2
    1000 (fun _ => Except.ok 7) ⟨[], 5, 10⟩ ⟨[("wd:q", 0)], 1, []⟩
    ⟨[], 0, []⟩ 0 "q"
  exact ⟨h.1, h.2.2.2.2 7 rfl rfl⟩

end Wbprop
